import Mathlib

/-!
Verification of the `tocookie` signed-cookie codec
(`traffic_ops/tocookie/tocookie.go`).

The Go source is shallowly embedded below. Byte strings (Go strings and byte
slices) are lists of naturals that are below 256 by construction. The Go
standard-library functions the codec calls (`crypto/sha1`, `crypto/hmac`,
`encoding/hex`, `encoding/base64`, `encoding/json`, `strings`, `time`) are
modelled by executable definitions that follow their documented behaviour on
the inputs this codec can feed them; the four functions of the source file
(`checkHmac`, `Parse`, `NewRawMsg`, `New`, `Refresh`) are translated line by
line. `Parse` takes the current Unix time as an explicit argument in place of
the call to `time.Now().Unix()`, and Go slice expressions are modelled
totally, with an explicit `fault` outcome where Go would panic on an
out-of-range slice index.
-/

namespace ToCookie

/-- Go byte strings are modelled as lists of naturals; every byte produced by
the functions below is below 256 by construction. -/
abbrev Bytes := List Nat

/-- Byte list of an ASCII Lean string literal. -/
def ascii (s : String) : Bytes := s.toList.map Char.toNat

/-! ## SHA-1 (model of Go `crypto/sha1`, FIPS 180-4) -/

/-- Truncate to a 32-bit word. -/
def w32 (x : Nat) : Nat := x % 4294967296

/-- Rotate a 32-bit word left by `n` (for `0 < n < 32` and `x < 2 ^ 32`). -/
def rotl32 (n x : Nat) : Nat := (x % 2 ^ (32 - n)) * 2 ^ n + x / 2 ^ (32 - n)

/-- SHA-1 round constant for round `t`. -/
def sha1K (t : Nat) : Nat :=
  if t < 20 then 1518500249
  else if t < 40 then 1859775393
  else if t < 60 then 2400959708
  else 3395469782

/-- SHA-1 round function for round `t` (the bitwise complement of a 32-bit
word `b` is `4294967295 - b`). -/
def sha1F (t b c d : Nat) : Nat :=
  if t < 20 then (b &&& c) ||| ((4294967295 - b) &&& d)
  else if t < 40 then (b ^^^ c) ^^^ d
  else if t < 60 then ((b &&& c) ||| (b &&& d)) ||| (c &&& d)
  else (b ^^^ c) ^^^ d

/-- Extend the 16 message words to the 80 schedule words,
`W t = rotl1 (W (t-3) xor W (t-8) xor W (t-14) xor W (t-16))`; the accumulator
is kept most-recent-first so the needed words sit near the head; fuel 64. -/
def sha1Schedule : Nat → List Nat → List Nat
  | 0, ws => ws.reverse
  | f + 1, ws =>
      sha1Schedule f (rotl32 1 (((ws.getD 2 0) ^^^ (ws.getD 7 0)) ^^^
        ((ws.getD 13 0) ^^^ (ws.getD 15 0))) :: ws)

/-- The 80 SHA-1 rounds over the schedule words, starting at round `t`. -/
def sha1Rounds : Nat → List Nat → Nat × Nat × Nat × Nat × Nat → Nat × Nat × Nat × Nat × Nat
  | _, [], s => s
  | t, w :: ws, (a, b, c, d, e) =>
      let tmp := w32 (rotl32 5 a + sha1F t b c d + e + sha1K t + w)
      sha1Rounds (t + 1) ws (tmp, a, rotl32 30 b, c, d)

/-- One SHA-1 compression step on a 16-word block. -/
def sha1Block (h : Nat × Nat × Nat × Nat × Nat) (ws : List Nat) : Nat × Nat × Nat × Nat × Nat :=
  match h with
  | (h0, h1, h2, h3, h4) =>
    match sha1Rounds 0 (sha1Schedule 64 ws.reverse) (h0, h1, h2, h3, h4) with
    | (a, b, c, d, e) => (w32 (h0 + a), w32 (h1 + b), w32 (h2 + c), w32 (h3 + d), w32 (h4 + e))

/-- Process 16-word blocks; called with fuel at least the number of blocks. -/
def sha1Chunks : Nat → Nat × Nat × Nat × Nat × Nat → List Nat → Nat × Nat × Nat × Nat × Nat
  | 0, h, _ => h
  | f + 1, h, ws => if ws = [] then h else sha1Chunks f (sha1Block h (ws.take 16)) (ws.drop 16)

/-- Big-endian 8-byte rendering of the length in bits. -/
def beBytes8 (n : Nat) : Bytes :=
  [n / 2 ^ 56 % 256, n / 2 ^ 48 % 256, n / 2 ^ 40 % 256, n / 2 ^ 32 % 256,
   n / 2 ^ 24 % 256, n / 2 ^ 16 % 256, n / 2 ^ 8 % 256, n % 256]

/-- SHA-1 message padding: byte 128, zeros to 56 mod 64, then the 64-bit
big-endian bit length. -/
def sha1PadMsg (msg : Bytes) : Bytes :=
  msg ++ 128 :: List.replicate ((119 - msg.length % 64) % 64) 0 ++ beBytes8 (msg.length * 8)

/-- Pack bytes into big-endian 32-bit words (input length a multiple of 4). -/
def bytesToWords : Bytes → List Nat
  | b0 :: b1 :: b2 :: b3 :: rest =>
      (b0 * 2 ^ 24 + b1 * 2 ^ 16 + b2 * 2 ^ 8 + b3) :: bytesToWords rest
  | _ => []

/-- Big-endian bytes of a 32-bit word. -/
def wordToBytes (w : Nat) : Bytes := [w / 2 ^ 24 % 256, w / 2 ^ 16 % 256, w / 2 ^ 8 % 256, w % 256]

/-- Big-endian digest bytes of the final five-word state. -/
def sha1Digest (h : Nat × Nat × Nat × Nat × Nat) : Bytes :=
  wordToBytes h.1 ++ wordToBytes h.2.1 ++ wordToBytes h.2.2.1 ++
  wordToBytes h.2.2.2.1 ++ wordToBytes h.2.2.2.2

/-- SHA-1 digest (20 bytes) of a byte string. -/
def sha1 (msg : Bytes) : Bytes :=
  let ws := bytesToWords (sha1PadMsg msg)
  sha1Digest (sha1Chunks (ws.length + 1) (1732584193, 4023233417, 2562383102, 271733878, 3285377520) ws)

/-! ## HMAC (model of Go `crypto/hmac` over SHA-1, block size 64) -/

/-- HMAC-SHA1 tag of `msg` under `key`. -/
def hmacSha1 (key msg : Bytes) : Bytes :=
  let k0 := if 64 < key.length then sha1 key else key
  let kp := k0 ++ List.replicate (64 - k0.length) 0
  sha1 ((kp.map (fun b => b ^^^ 92)) ++ sha1 ((kp.map (fun b => b ^^^ 54)) ++ msg))

/-! ## Hex (model of Go `encoding/hex`) -/

/-- Lowercase hex digit byte of a value below 16. -/
def hexDigitOf (v : Nat) : Nat :=
  [48, 49, 50, 51, 52, 53, 54, 55, 56, 57, 97, 98, 99, 100, 101, 102].getD v 0

/-- Lowercase hex rendering of a byte string, as Go `hex.EncodeToString`. -/
def hexEncode : Bytes → Bytes
  | [] => []
  | b :: rest => hexDigitOf (b / 16) :: hexDigitOf (b % 16) :: hexEncode rest

/-- Value of one hex digit byte (either case), as in Go `hex.Decode`. -/
def hexValOf (c : Nat) : Option Nat :=
  if 48 ≤ c ∧ c ≤ 57 then some (c - 48)
  else if 97 ≤ c ∧ c ≤ 102 then some (c - 87)
  else if 65 ≤ c ∧ c ≤ 70 then some (c - 55)
  else none

/-- Go `hex.DecodeString`: even length, both digit cases accepted. -/
def hexDecode : Bytes → Option Bytes
  | [] => some []
  | [_] => none
  | c0 :: c1 :: rest => do
      let v0 ← hexValOf c0
      let v1 ← hexValOf c1
      let tail ← hexDecode rest
      pure ((v0 * 16 + v1) :: tail)

/-! ## Base64 (model of Go `encoding/base64`: `RawURLEncoding` for decoding,
and `RawURLEncoding.WithPadding` with pad byte 45 for encoding) -/

/-- URL-safe base64 alphabet: A-Z, a-z, 0-9, dash, underscore. -/
def b64Alphabet : Bytes :=
  [65, 66, 67, 68, 69, 70, 71, 72, 73, 74, 75, 76, 77, 78, 79, 80, 81, 82, 83, 84, 85, 86, 87, 88,
   89, 90, 97, 98, 99, 100, 101, 102, 103, 104, 105, 106, 107, 108, 109, 110, 111, 112, 113, 114,
   115, 116, 117, 118, 119, 120, 121, 122, 48, 49, 50, 51, 52, 53, 54, 55, 56, 57, 45, 95]

/-- Alphabet character of a 6-bit value. -/
def b64CharOf (v : Nat) : Nat := b64Alphabet.getD v 0

/-- Search helper for the index of a byte in the alphabet. -/
def b64ValOfAux : Bytes → Nat → Nat → Option Nat
  | [], _, _ => none
  | a :: rest, c, i => if a = c then some i else b64ValOfAux rest c (i + 1)

/-- 6-bit value of a URL-safe base64 character. -/
def b64ValOf (c : Nat) : Option Nat := b64ValOfAux b64Alphabet c 0

/-- Unpadded URL-safe base64 encoding of a byte string. -/
def b64EncodeRaw : Bytes → Bytes
  | [] => []
  | [b0] => [b64CharOf (b0 / 4), b64CharOf (b0 % 4 * 16)]
  | [b0, b1] => [b64CharOf (b0 / 4), b64CharOf (b0 % 4 * 16 + b1 / 16), b64CharOf (b1 % 16 * 4)]
  | b0 :: b1 :: b2 :: rest =>
      b64CharOf (b0 / 4) :: b64CharOf (b0 % 4 * 16 + b1 / 16) ::
      b64CharOf (b1 % 16 * 4 + b2 / 64) :: b64CharOf (b2 % 64) :: b64EncodeRaw rest

/-- Number of pad characters a padded encoding appends for message length `n`. -/
def b64PadLen (n : Nat) : Nat := (3 - n % 3) % 3

/-- Padded URL-safe base64 with pad byte 45 (the dash), as the Go encoder
`RawURLEncoding.WithPadding` configured in `NewRawMsg` produces. -/
def b64EncodePad (msg : Bytes) : Bytes :=
  b64EncodeRaw msg ++ List.replicate (b64PadLen msg.length) 45

/-- Decode groups of 4 base64 characters, with trailing groups of 2 or 3
characters as in Go, and without checking that unused trailing bits are zero
(Go decodes in its default, non-Strict mode). -/
def b64DecodeAux : Bytes → Option Bytes
  | [] => some []
  | [_] => none
  | [c0, c1] => do
      let v0 ← b64ValOf c0
      let v1 ← b64ValOf c1
      pure [v0 * 4 + v1 / 16]
  | [c0, c1, c2] => do
      let v0 ← b64ValOf c0
      let v1 ← b64ValOf c1
      let v2 ← b64ValOf c2
      pure [v0 * 4 + v1 / 16, v1 % 16 * 16 + v2 / 4]
  | c0 :: c1 :: c2 :: c3 :: rest => do
      let v0 ← b64ValOf c0
      let v1 ← b64ValOf c1
      let v2 ← b64ValOf c2
      let v3 ← b64ValOf c3
      let tail ← b64DecodeAux rest
      pure ((v0 * 4 + v1 / 16) :: (v1 % 16 * 16 + v2 / 4) :: (v2 % 4 * 64 + v3) :: tail)

/-- Go `RawURLEncoding.DecodeString`: carriage-return and newline bytes are
ignored, then strict 4-character groups with a shorter final group. -/
def b64DecodeRaw (s : Bytes) : Option Bytes :=
  b64DecodeAux (s.filter (fun b => b != 13 && b != 10))

/-! ## UTF-8 and JSON (model of Go `encoding/json` for the `Cookie` struct) -/

/-- UTF-8 bytes of a single code point (callers pass values at most 1114111
and not surrogates). -/
def utf8EncodeChar (r : Nat) : Bytes :=
  if r < 128 then [r]
  else if r < 2048 then [192 + r / 64, 128 + r % 64]
  else if r < 65536 then [224 + r / 4096, 128 + r / 64 % 64, 128 + r % 64]
  else [240 + r / 262144, 128 + r / 4096 % 64, 128 + r / 64 % 64, 128 + r % 64]

/-- UTF-8 bytes of a list of code points. -/
def utf8Encode (rs : List Nat) : Bytes := (rs.map utf8EncodeChar).flatten

/-- First code point of a byte string with full validity checking, as Go
`unicode/utf8.DecodeRune`: returns the rune and its encoded size. -/
def utf8DecodeFirst : Bytes → Option (Nat × Nat)
  | [] => none
  | b0 :: rest =>
    if b0 < 128 then some (b0, 1)
    else if b0 < 194 then none
    else if b0 < 224 then
      match rest with
      | b1 :: _ => if 128 ≤ b1 ∧ b1 < 192 then some ((b0 - 192) * 64 + (b1 - 128), 2) else none
      | [] => none
    else if b0 < 240 then
      match rest with
      | b1 :: b2 :: _ =>
          let lo := if b0 = 224 then 160 else 128
          let hi := if b0 = 237 then 160 else 192
          if lo ≤ b1 ∧ b1 < hi ∧ 128 ≤ b2 ∧ b2 < 192 then
            some ((b0 - 224) * 4096 + (b1 - 128) * 64 + (b2 - 128), 3)
          else none
      | _ => none
    else if b0 < 245 then
      match rest with
      | b1 :: b2 :: b3 :: _ =>
          let lo := if b0 = 240 then 144 else 128
          let hi := if b0 = 244 then 144 else 192
          if lo ≤ b1 ∧ b1 < hi ∧ 128 ≤ b2 ∧ b2 < 192 ∧ 128 ≤ b3 ∧ b3 < 192 then
            some ((b0 - 240) * 262144 + (b1 - 128) * 4096 + (b2 - 128) * 64 + (b3 - 128), 4)
          else none
      | _ => none
    else none

/-- The 6-byte escape the Go encoder writes for control and HTML bytes. -/
def uEsc (b : Nat) : Bytes := [92, 117, 48, 48, hexDigitOf (b / 16), hexDigitOf (b % 16)]

/-- Escape output for one ASCII byte, as the Go encoder (with its default
HTML escaping) writes it; `none` for bytes 128 and above, which take the
rune path. -/
def jsonEscSimple (b : Nat) : Option Bytes :=
  if b = 34 then some [92, 34]
  else if b = 92 then some [92, 92]
  else if b = 10 then some [92, 110]
  else if b = 13 then some [92, 114]
  else if b = 9 then some [92, 116]
  else if b = 60 ∨ b = 62 ∨ b = 38 then some (uEsc b)
  else if b < 32 then some (uEsc b)
  else if b < 128 then some [b]
  else none

/-- Go `encoding/json` string escaping (with the default HTML escaping),
byte-level; fuel is at least the input length. Invalid UTF-8 gets the
replacement-character escape, and the code points 8232 and 8233 are escaped,
exactly as the Go encoder does. -/
def jsonEscapeBytes : Nat → Bytes → Bytes
  | 0, _ => []
  | _, [] => []
  | f + 1, b :: rest =>
    match jsonEscSimple b with
    | some out => out ++ jsonEscapeBytes f rest
    | none =>
      match utf8DecodeFirst (b :: rest) with
      | none => [92, 117, 102, 102, 102, 100] ++ jsonEscapeBytes f rest
      | some (r, size) =>
        if r = 8232 then [92, 117, 50, 48, 50, 56] ++ jsonEscapeBytes f (rest.drop (size - 1))
        else if r = 8233 then [92, 117, 50, 48, 50, 57] ++ jsonEscapeBytes f (rest.drop (size - 1))
        else (b :: rest).take size ++ jsonEscapeBytes f (rest.drop (size - 1))

/-- Escape a byte string as a JSON string body. -/
def jsonEscape (s : Bytes) : Bytes := jsonEscapeBytes s.length s

/-- Decimal digit bytes of a natural (most significant first); fuel at least `n`. -/
def natDecAux : Nat → Nat → Bytes
  | 0, _ => []
  | f + 1, n => if n = 0 then [] else natDecAux f (n / 10) ++ [48 + n % 10]

/-- Decimal byte rendering of a natural. -/
def natDec (n : Nat) : Bytes := if n = 0 then [48] else natDecAux (n + 1) n

/-- Decimal byte rendering of an integer. -/
def intDec (i : Int) : Bytes := if i < 0 then 45 :: natDec (-i).toNat else natDec i.toNat

/-- The token record of `tocookie.go`: struct `Cookie` with fields `AuthData`
(json tag `auth_data`), `ExpiresUnix` (`int64`, tag `expires`) and `By`
(tag `by`), in declaration order. -/
structure Cookie where
  AuthData : Bytes
  ExpiresUnix : Int
  By : Bytes
deriving DecidableEq

/-- Issuer constant of `tocookie.go`. -/
def GeneratedByStr : Bytes := ascii ("trafficcontrol-go-tocookie")

/-- Cookie name constant of `tocookie.go` (not used by the codec itself). -/
def Name : Bytes := ascii ("mojolicious")

/-- Default validity window of `tocookie.go` (`time.Hour`), in seconds. -/
def DefaultDuration : Int := 3600

/-- Go `json.Marshal` of a `Cookie` value: fields in declaration order with
their json tags. -/
def jsonMarshalCookie (c : Cookie) : Bytes :=
  [123, 34] ++ ascii ("auth_data") ++ [34, 58, 34] ++ jsonEscape c.AuthData ++
  [34, 44, 34] ++ ascii ("expires") ++ [34, 58] ++ intDec c.ExpiresUnix ++
  [44, 34] ++ ascii ("by") ++ [34, 58, 34] ++ jsonEscape c.By ++ [34, 125]

/-- JSON whitespace bytes. -/
def isJsonWs (b : Nat) : Bool := b == 32 || b == 9 || b == 10 || b == 13

/-- Drop leading JSON whitespace. -/
def skipWs : Bytes → Bytes
  | [] => []
  | b :: rest => if isJsonWs b then skipWs rest else b :: rest

/-- Combine four hex digit bytes into a value. -/
def hex4Val (a b c d : Nat) : Option Nat := do
  let x ← hexValOf a
  let y ← hexValOf b
  let z ← hexValOf c
  let w ← hexValOf d
  pure (x * 4096 + y * 256 + z * 16 + w)

/-- Value of a single-character escape sequence after the backslash, as the
Go decoder accepts them. -/
def jsonEscChar (e : Nat) : Option Nat :=
  if e = 34 ∨ e = 92 ∨ e = 47 then some e
  else if e = 98 then some 8
  else if e = 102 then some 12
  else if e = 110 then some 10
  else if e = 114 then some 13
  else if e = 116 then some 9
  else none

/-- Decode a `u`-escape (four hex digits) positioned after the backslash-u,
with the surrogate-pair handling of the Go decoder: a high surrogate combines
with a following low surrogate escape, and a lone surrogate becomes the
replacement character. Returns the decoded bytes and the remaining input. -/
def jsonUEsc : Bytes → Option (Bytes × Bytes)
  | h1 :: h2 :: h3 :: h4 :: r3 =>
    match hex4Val h1 h2 h3 h4 with
    | none => none
    | some r =>
      if 55296 ≤ r ∧ r < 56320 then
        match r3 with
        | 92 :: 117 :: g1 :: g2 :: g3 :: g4 :: r4 =>
          match hex4Val g1 g2 g3 g4 with
          | none => some (utf8EncodeChar 65533, r3)
          | some rl =>
            if 56320 ≤ rl ∧ rl < 57344 then
              some (utf8EncodeChar (65536 + (r - 55296) * 1024 + (rl - 56320)), r4)
            else some (utf8EncodeChar 65533, r3)
        | _ => some (utf8EncodeChar 65533, r3)
      else if 56320 ≤ r ∧ r < 57344 then some (utf8EncodeChar 65533, r3)
      else some (utf8EncodeChar r, r3)
  | _ => none

/-- Go `encoding/json` string unquoting, after the opening quote: returns the
decoded content and the bytes after the closing quote. Escape sequences and
surrogate pairs are handled as in Go; raw bytes are passed through (every
input this development feeds it is valid UTF-8, where Go also passes bytes
through). Fuel is at least the input length. -/
def jsonUnescapeStr : Nat → Bytes → Option (Bytes × Bytes)
  | 0, _ => none
  | _, [] => none
  | f + 1, b :: rest =>
    if b = 34 then some ([], rest)
    else if b = 92 then
      match rest with
      | [] => none
      | e :: r2 =>
        if e = 117 then
          match jsonUEsc r2 with
          | none => none
          | some q => (jsonUnescapeStr f q.2).map (fun p => (q.1 ++ p.1, p.2))
        else
          match jsonEscChar e with
          | none => none
          | some v => (jsonUnescapeStr f r2).map (fun p => (v :: p.1, p.2))
    else if b < 32 then none
    else (jsonUnescapeStr f rest).map (fun p => (b :: p.1, p.2))

/-- Greedily consume decimal digit bytes, folding their value. -/
def takeDigitsAcc : Bytes → Nat → Nat × Bytes
  | [], acc => (acc, [])
  | b :: rest, acc =>
      if 48 ≤ b ∧ b ≤ 57 then takeDigitsAcc rest (acc * 10 + (b - 48)) else (acc, b :: rest)

/-- JSON natural-number literal (no leading zero except a lone zero digit). -/
def jsonParseNatRaw : Bytes → Option (Nat × Bytes)
  | [] => none
  | b :: rest =>
      if b = 48 then
        match rest with
        | b2 :: _ => if 48 ≤ b2 ∧ b2 ≤ 57 then none else some (0, rest)
        | [] => some (0, [])
      else if 49 ≤ b ∧ b ≤ 57 then some (takeDigitsAcc rest (b - 48))
      else none

/-- True when the head byte cannot continue a number literal into a float;
a following float form makes the Go int64 unmarshal fail. -/
def notFloatHead : Bytes → Bool
  | [] => true
  | b :: _ => !(b == 46 || b == 101 || b == 69)

/-- Go `encoding/json` integer value into an `int64` field: JSON number
grammar restricted to integers, with the `strconv.ParseInt` range check. -/
def jsonParseInt (s : Bytes) : Option (Int × Bytes) :=
  match s with
  | 45 :: rest =>
      (jsonParseNatRaw rest).bind (fun p =>
        if (p.1 : Int) ≤ 2 ^ 63 ∧ notFloatHead p.2 then some (-(p.1 : Int), p.2) else none)
  | _ =>
      (jsonParseNatRaw s).bind (fun p =>
        if (p.1 : Int) < 2 ^ 63 ∧ notFloatHead p.2 then some ((p.1 : Int), p.2) else none)

/-- Consume the digits-and-signs part of a number literal when skipping the
value of an unknown field; requires at least one digit. -/
def skipNumber (s : Bytes) : Option Bytes :=
  let p := s.span (fun b =>
    (48 ≤ b && b ≤ 57) || b == 45 || b == 43 || b == 46 || b == 101 || b == 69)
  if (p.1.filter (fun b => 48 ≤ b && b ≤ 57)).length = 0 then none else some p.2

mutual

/-- Skip one JSON value (for unknown object keys), as the Go decoder does. -/
def skipJsonValue : Nat → Bytes → Option Bytes
  | 0, _ => none
  | f + 1, s =>
    match skipWs s with
    | [] => none
    | b :: rest =>
      if b = 34 then (jsonUnescapeStr rest.length rest).map (fun p => p.2)
      else if b = 116 then match rest with | 114 :: 117 :: 101 :: r => some r | _ => none
      else if b = 102 then match rest with | 97 :: 108 :: 115 :: 101 :: r => some r | _ => none
      else if b = 110 then match rest with | 117 :: 108 :: 108 :: r => some r | _ => none
      else if b = 123 then skipObjRest f rest
      else if b = 91 then skipArrRest f rest
      else skipNumber (b :: rest)

/-- Skip the members of an object after its opening brace. -/
def skipObjRest : Nat → Bytes → Option Bytes
  | 0, _ => none
  | f + 1, s =>
    match skipWs s with
    | 125 :: r => some r
    | 34 :: r => do
        let p ← jsonUnescapeStr r.length r
        match skipWs p.2 with
        | 58 :: r2 => do
            let r3 ← skipJsonValue f r2
            match skipWs r3 with
            | 44 :: r4 => skipObjRest f r4
            | 125 :: r4 => some r4
            | _ => none
        | _ => none
    | _ => none

/-- Skip the elements of an array after its opening bracket. -/
def skipArrRest : Nat → Bytes → Option Bytes
  | 0, _ => none
  | f + 1, s =>
    match skipWs s with
    | 93 :: r => some r
    | _ => do
        let r2 ← skipJsonValue f s
        match skipWs r2 with
        | 44 :: r3 => skipArrRest f r3
        | 93 :: r3 => some r3
        | _ => none

end

/-- ASCII lowercase folding, for the case-insensitive json key matching Go
falls back to. -/
def toLowerAscii (s : Bytes) : Bytes := s.map (fun b => if 65 ≤ b ∧ b ≤ 90 then b + 32 else b)

/-- The zero `Cookie` value json unmarshalling starts from. -/
def zeroCookie : Cookie := ⟨[], 0, []⟩

/-- Assign one parsed object member to the matching `Cookie` field (json tags
matched case-insensitively as Go does; unknown keys have their value skipped;
a `null` value leaves the field unchanged). -/
def assignField (c : Cookie) (key : Bytes) (s : Bytes) : Option (Cookie × Bytes) :=
  let k := toLowerAscii key
  if k = ascii ("auth_data") then
    if s.take 4 = ascii ("null") then some (c, s.drop 4)
    else
      match s with
      | 34 :: r => (jsonUnescapeStr r.length r).map (fun p => ({ c with AuthData := p.1 }, p.2))
      | _ => none
  else if k = ascii ("expires") then
    if s.take 4 = ascii ("null") then some (c, s.drop 4)
    else (jsonParseInt s).map (fun p => ({ c with ExpiresUnix := p.1 }, p.2))
  else if k = ascii ("by") then
    if s.take 4 = ascii ("null") then some (c, s.drop 4)
    else
      match s with
      | 34 :: r => (jsonUnescapeStr r.length r).map (fun p => ({ c with By := p.1 }, p.2))
      | _ => none
  else (skipJsonValue s.length s).map (fun r => (c, r))

/-- Parse the members of the top-level object into a `Cookie`; positioned just
after the opening brace or a comma. Fuel is at least the number of members. -/
def parseMembers : Nat → Bytes → Cookie → Option (Cookie × Bytes)
  | 0, _, _ => none
  | f + 1, s, c =>
    match skipWs s with
    | 34 :: rest =>
      match jsonUnescapeStr rest.length rest with
      | none => none
      | some kp =>
        match skipWs kp.2 with
        | 58 :: r3 =>
          match assignField c kp.1 (skipWs r3) with
          | none => none
          | some vp =>
            match skipWs vp.2 with
            | 44 :: r7 => parseMembers f r7 vp.1
            | 125 :: r7 => some (vp.1, r7)
            | _ => none
        | _ => none
    | _ => none

/-- Go `json.Unmarshal` of a byte string into a `Cookie`: a top-level object
(or `null`), zero values for absent fields, error on trailing data. -/
def jsonUnmarshalCookie (s : Bytes) : Option Cookie :=
  match skipWs s with
  | 110 :: 117 :: 108 :: 108 :: r => if skipWs r = [] then some zeroCookie else none
  | 123 :: r =>
      match skipWs r with
      | 125 :: r2 => if skipWs r2 = [] then some zeroCookie else none
      | _ =>
          match parseMembers r.length (skipWs r) zeroCookie with
          | none => none
          | some p => if skipWs p.2 = [] then some p.1 else none
  | _ => none

/-! ## The functions of `tocookie.go` -/

/-- Model of `checkHmac`: recompute the tag with `hmac.New(sha1.New, key)` and
compare with `hmac.Equal` (byte equality, computed in constant time). -/
def checkHmac (message messageMAC key : Bytes) : Bool :=
  messageMAC == hmacSha1 key message

/-- Rejection reasons `Parse` can return, one per `fmt.Errorf` site. -/
inductive ParseErr
  | noDashes
  | noSignature
  | badB64
  | badSigHex
  | badSignature
  | badJson
  | expired
deriving DecidableEq

/-- Outcome of running `Parse`: a record, an error value, or a runtime fault
(a Go panic from an out-of-range slice). -/
inductive ParseResult
  | fault
  | err (e : ParseErr)
  | ok (c : Cookie)
deriving DecidableEq

/-- Search helper for Go `strings.Index`. -/
def goIndexAux (b : Nat) : Bytes → Nat → Option Nat
  | [], _ => none
  | c :: rest, i => if c = b then some i else goIndexAux b rest (i + 1)

/-- Go `strings.Index(s, b)` for a one-byte pattern: first byte index or -1. -/
def goIndexOf (s : Bytes) (b : Nat) : Int :=
  match goIndexAux b s 0 with
  | some i => (i : Int)
  | none => -1

/-- Go `strings.LastIndex(s, b)` for a one-byte pattern: last byte index or -1. -/
def goLastIndexOf (s : Bytes) (b : Nat) : Int :=
  match goIndexAux b s.reverse 0 with
  | some i => (s.length : Int) - 1 - (i : Int)
  | none => -1

/-- Go slice expression up to index `i`: panics (`none`) when `i` is negative
or beyond the length. -/
def goSliceTo (s : Bytes) (i : Int) : Option Bytes :=
  if 0 ≤ i ∧ i ≤ (s.length : Int) then some (s.take i.toNat) else none

/-- Go slice expression from index `i`: panics (`none`) when `i` is negative
or beyond the length. -/
def goSliceFromIdx (s : Bytes) (i : Int) : Option Bytes :=
  if 0 ≤ i ∧ i ≤ (s.length : Int) then some (s.drop i.toNat) else none

/-- Interpret a value in `[0, 2 ^ 64)` as a signed 64-bit integer. -/
def int64OfMod (v : Nat) : Int := if v < 2 ^ 63 then (v : Int) else (v : Int) - 2 ^ 64

/-- Go `int64` subtraction: wraps modulo `2 ^ 64`. -/
def int64Sub (a b : Int) : Int := int64OfMod ((a - b) % 2 ^ 64).toNat

/-- Model of `Parse` of `tocookie.go`, line by line; `now` stands for the
value of `time.Now().Unix()` at the expiration check. -/
def Parse (secret cookie : Bytes) (now : Int) : ParseResult :=
  let dashPos := goIndexOf cookie 45
  if dashPos = -1 then .err .noDashes
  else
    let lastDashPos := goLastIndexOf cookie 45
    if lastDashPos = -1 then .err .noDashes
    else if (cookie.length : Int) < lastDashPos + 1 then .err .noSignature
    else
      match goSliceTo cookie dashPos with
      | none => .fault
      | some base64Txt =>
        match b64DecodeRaw base64Txt with
        | none => .err .badB64
        | some txtBytes =>
          match goSliceTo cookie (lastDashPos - 1) with
          | none => .fault
          | some base64TxtSig =>
            match goSliceFromIdx cookie (lastDashPos + 1) with
            | none => .fault
            | some base64Sig =>
              match hexDecode base64Sig with
              | none => .err .badSigHex
              | some sigBytes =>
                if checkHmac base64TxtSig sigBytes secret then
                  match jsonUnmarshalCookie txtBytes with
                  | none => .err .badJson
                  | some cookieData =>
                    if int64Sub cookieData.ExpiresUnix now < 0 then .err .expired
                    else .ok cookieData
                else .err .badSignature

/-- Model of `NewRawMsg` of `tocookie.go`: padded URL-safe base64 of `msg`,
the two-dash separator, then lowercase hex of the HMAC-SHA1 tag of the
encoded text under `key`. -/
def NewRawMsg (msg key : Bytes) : Bytes :=
  let base64Msg := b64EncodePad msg
  base64Msg ++ [45, 45] ++ hexEncode (hmacSha1 key base64Msg)

/-- Go `time.Time`, reduced to Unix seconds (`Unix()`, the floor) and the
sub-second part. -/
structure GoTime where
  sec : Int
  nsec : Nat

/-- Whether `t1` is not later than `t2`. -/
def goTimeLe (t1 t2 : GoTime) : Prop :=
  t1.sec < t2.sec ∨ (t1.sec = t2.sec ∧ t1.nsec ≤ t2.nsec)

/-- Model of `New` of `tocookie.go`: marshal the record with the standard
issuer and `expiration.Unix()` (whole seconds), and sign it. -/
def New (user : Bytes) (expiration : GoTime) (key : Bytes) : Bytes :=
  NewRawMsg (jsonMarshalCookie ⟨user, expiration.sec, GeneratedByStr⟩) key

/-- Model of `Refresh` of `tocookie.go`: re-mint for the same identity with
expiration `time.Now().Add(DefaultDuration)`. -/
def Refresh (c : Cookie) (key : Bytes) (now : GoTime) : Bytes :=
  New c.AuthData ⟨now.sec + DefaultDuration, now.nsec⟩ key

/-! ## Supporting lemmas: searching, slicing, whitespace -/

theorem goIndexAux_append_self (b : Nat) (xs ys : Bytes) (h : b ∉ xs) (i : Nat) :
    goIndexAux b (xs ++ b :: ys) i = some (i + xs.length) := by
  induction xs generalizing i with
  | nil => simp [goIndexAux]
  | cons x xs ih =>
      simp only [List.mem_cons, not_or] at h
      have hx : x ≠ b := fun e => h.1 e.symm
      simp [goIndexAux, hx, ih h.2]
      omega

theorem goIndexAux_none (b : Nat) (xs : Bytes) (h : b ∉ xs) (i : Nat) :
    goIndexAux b xs i = none := by
  induction xs generalizing i with
  | nil => rfl
  | cons x xs ih =>
      simp only [List.mem_cons, not_or] at h
      have hx : x ≠ b := fun e => h.1 e.symm
      simp [goIndexAux, hx, ih h.2]

theorem goIndexOf_append (b : Nat) (xs ys : Bytes) (h : b ∉ xs) :
    goIndexOf (xs ++ b :: ys) b = (xs.length : Int) := by
  simp [goIndexOf, goIndexAux_append_self b xs ys h 0]

theorem goIndexOf_not_mem (b : Nat) (s : Bytes) (h : b ∉ s) : goIndexOf s b = -1 := by
  simp [goIndexOf, goIndexAux_none b s h 0]

theorem goLastIndexOf_append (b : Nat) (xs ys : Bytes) (h : b ∉ ys) :
    goLastIndexOf (xs ++ b :: ys) b = (xs.length : Int) := by
  unfold goLastIndexOf
  have hrev : (xs ++ b :: ys).reverse = ys.reverse ++ b :: xs.reverse := by simp
  rw [hrev, goIndexAux_append_self b ys.reverse xs.reverse (by simpa using h) 0]
  simp
  omega

theorem goSliceTo_nat (s : Bytes) (n : Nat) (h : n ≤ s.length) :
    goSliceTo s (n : Int) = some (s.take n) := by
  simp [goSliceTo]
  exact_mod_cast h

theorem goSliceFromIdx_nat (s : Bytes) (n : Nat) (h : n ≤ s.length) :
    goSliceFromIdx s (n : Int) = some (s.drop n) := by
  simp [goSliceFromIdx]
  exact_mod_cast h

theorem skipWs_cons_of (b : Nat) (l : Bytes) (h : isJsonWs b = false) :
    skipWs (b :: l) = b :: l := by
  simp [skipWs, h]

/-! ## Supporting lemmas: hex -/

theorem hexValOf_hexDigitOf (v : Nat) (h : v < 16) : hexValOf (hexDigitOf v) = some v := by
  revert h
  revert v
  decide

theorem hexDigitOf_range (v : Nat) (h : v < 16) :
    (48 ≤ hexDigitOf v ∧ hexDigitOf v ≤ 57) ∨ (97 ≤ hexDigitOf v ∧ hexDigitOf v ≤ 102) := by
  revert h
  revert v
  decide

theorem dash_not_mem_hexEncode (bs : Bytes) (h : ∀ b ∈ bs, b < 256) :
    45 ∉ hexEncode bs := by
  induction bs with
  | nil => simp [hexEncode]
  | cons b rest ih =>
      have hb : b < 256 := h b (List.mem_cons_self b rest)
      have h1 := hexDigitOf_range (b / 16) (by omega)
      have h2 := hexDigitOf_range (b % 16) (by omega)
      have ih2 := ih (fun x hx => h x (List.mem_cons_of_mem b hx))
      simp only [hexEncode, List.mem_cons, not_or]
      exact ⟨by omega, by omega, ih2⟩

theorem hexDecode_hexEncode (bs : Bytes) (h : ∀ b ∈ bs, b < 256) :
    hexDecode (hexEncode bs) = some bs := by
  induction bs with
  | nil => rfl
  | cons b rest ih =>
      have hb : b < 256 := h b (List.mem_cons_self b rest)
      have ih2 := ih (fun x hx => h x (List.mem_cons_of_mem b hx))
      simp only [hexEncode, hexDecode, hexValOf_hexDigitOf (b / 16) (by omega),
        hexValOf_hexDigitOf (b % 16) (by omega), ih2, Option.bind_eq_bind, Option.some_bind]
      have : b / 16 * 16 + b % 16 = b := by omega
      simp [this]

/-! ## Supporting lemmas: SHA-1 and HMAC -/

theorem sha1_length (msg : Bytes) : (sha1 msg).length = 20 := by
  simp [sha1, sha1Digest, wordToBytes]

theorem sha1_bytes_lt (msg : Bytes) : ∀ b ∈ sha1 msg, b < 256 := by
  intro b hb
  simp only [sha1, sha1Digest, wordToBytes, List.mem_append, List.mem_cons,
    List.not_mem_nil, or_false] at hb
  rcases hb with ((h | h | h | h) | (h | h | h | h) | (h | h | h | h) | h) <;> omega

theorem hmacSha1_length (key msg : Bytes) : (hmacSha1 key msg).length = 20 := by
  simp [hmacSha1, sha1_length]

theorem hmacSha1_bytes_lt (key msg : Bytes) : ∀ b ∈ hmacSha1 key msg, b < 256 := by
  intro b hb
  exact sha1_bytes_lt _ b hb

theorem checkHmac_self (m key : Bytes) : checkHmac m (hmacSha1 key m) key = true := by
  simp [checkHmac]

theorem checkHmac_empty (m key : Bytes) : checkHmac m [] key = false := by
  have h20 := hmacSha1_length key m
  rw [checkHmac]
  cases he : hmacSha1 key m with
  | nil => rw [he] at h20; simp at h20
  | cons x xs => simp

/-! ## Supporting lemmas: base64 -/

theorem b64ValOf_b64CharOf (v : Nat) (h : v < 64) : b64ValOf (b64CharOf v) = some v := by
  revert h
  revert v
  decide

theorem b64CharOf_range (v : Nat) (h : v < 64) : 45 ≤ b64CharOf v ∧ b64CharOf v < 128 := by
  revert h
  revert v
  decide

theorem b64EncodeRaw_chars :
    ∀ (bs : Bytes), (∀ b ∈ bs, b < 256) → ∀ c ∈ b64EncodeRaw bs, 45 ≤ c ∧ c < 128
  | [], _ => by simp [b64EncodeRaw]
  | [b0], h => by
      have hb : b0 < 256 := h b0 (by simp)
      simp only [b64EncodeRaw, List.mem_cons, List.not_mem_nil, or_false]
      rintro c (rfl | rfl)
      · exact b64CharOf_range _ (by omega)
      · exact b64CharOf_range _ (by omega)
  | [b0, b1], h => by
      have hb0 : b0 < 256 := h b0 (by simp)
      have hb1 : b1 < 256 := h b1 (by simp)
      simp only [b64EncodeRaw, List.mem_cons, List.not_mem_nil, or_false]
      rintro c (rfl | rfl | rfl)
      · exact b64CharOf_range _ (by omega)
      · exact b64CharOf_range _ (by omega)
      · exact b64CharOf_range _ (by omega)
  | b0 :: b1 :: b2 :: b3 :: rest, h => by
      have hb0 : b0 < 256 := h b0 (by simp)
      have hb1 : b1 < 256 := h b1 (by simp)
      have hb2 : b2 < 256 := h b2 (by simp)
      have ih := b64EncodeRaw_chars (b3 :: rest)
        (fun x hx => h x (by simp only [List.mem_cons] at hx ⊢; tauto))
      simp only [b64EncodeRaw, List.mem_cons]
      rintro c (rfl | rfl | rfl | rfl | hc)
      · exact b64CharOf_range _ (by omega)
      · exact b64CharOf_range _ (by omega)
      · exact b64CharOf_range _ (by omega)
      · exact b64CharOf_range _ (by omega)
      · exact ih c hc
  | [b0, b1, b2], h => by
      have hb0 : b0 < 256 := h b0 (by simp)
      have hb1 : b1 < 256 := h b1 (by simp)
      have hb2 : b2 < 256 := h b2 (by simp)
      simp only [b64EncodeRaw, List.mem_cons]
      rintro c (rfl | rfl | rfl | rfl | hc)
      · exact b64CharOf_range _ (by omega)
      · exact b64CharOf_range _ (by omega)
      · exact b64CharOf_range _ (by omega)
      · exact b64CharOf_range _ (by omega)
      · simp [b64EncodeRaw] at hc

theorem b64_filter_noop (s : Bytes) (h : ∀ c ∈ s, 45 ≤ c) :
    s.filter (fun b => b != 13 && b != 10) = s := by
  rw [List.filter_eq_self]
  intro a ha
  have h45 := h a ha
  simp only [Bool.and_eq_true, bne_iff_ne, ne_eq]
  omega

theorem b64DecodeAux_encodeRaw :
    ∀ (bs : Bytes), (∀ b ∈ bs, b < 256) → b64DecodeAux (b64EncodeRaw bs) = some bs
  | [], _ => rfl
  | [b0], h => by
      have hb : b0 < 256 := h b0 (by simp)
      simp only [b64EncodeRaw, b64DecodeAux, b64ValOf_b64CharOf (b0 / 4) (by omega),
        b64ValOf_b64CharOf (b0 % 4 * 16) (by omega), Option.bind_eq_bind, Option.some_bind]
      rw [show b0 / 4 * 4 + b0 % 4 * 16 / 16 = b0 by omega]
      rfl
  | [b0, b1], h => by
      have hb0 : b0 < 256 := h b0 (by simp)
      have hb1 : b1 < 256 := h b1 (by simp)
      simp only [b64EncodeRaw, b64DecodeAux, b64ValOf_b64CharOf (b0 / 4) (by omega),
        b64ValOf_b64CharOf (b0 % 4 * 16 + b1 / 16) (by omega),
        b64ValOf_b64CharOf (b1 % 16 * 4) (by omega), Option.bind_eq_bind, Option.some_bind]
      rw [show b0 / 4 * 4 + (b0 % 4 * 16 + b1 / 16) / 16 = b0 by omega,
        show (b0 % 4 * 16 + b1 / 16) % 16 * 16 + b1 % 16 * 4 / 4 = b1 by omega]
      rfl
  | [b0, b1, b2], h => by
      have hb0 : b0 < 256 := h b0 (by simp)
      have hb1 : b1 < 256 := h b1 (by simp)
      have hb2 : b2 < 256 := h b2 (by simp)
      simp only [b64EncodeRaw, b64DecodeAux, b64ValOf_b64CharOf (b0 / 4) (by omega),
        b64ValOf_b64CharOf (b0 % 4 * 16 + b1 / 16) (by omega),
        b64ValOf_b64CharOf (b1 % 16 * 4 + b2 / 64) (by omega),
        b64ValOf_b64CharOf (b2 % 64) (by omega), Option.bind_eq_bind, Option.some_bind]
      rw [show b0 / 4 * 4 + (b0 % 4 * 16 + b1 / 16) / 16 = b0 by omega,
        show (b0 % 4 * 16 + b1 / 16) % 16 * 16 + (b1 % 16 * 4 + b2 / 64) / 4 = b1 by omega,
        show (b1 % 16 * 4 + b2 / 64) % 4 * 64 + b2 % 64 = b2 by omega]
      rfl
  | b0 :: b1 :: b2 :: b3 :: rest, h => by
      have hb0 : b0 < 256 := h b0 (by simp)
      have hb1 : b1 < 256 := h b1 (by simp)
      have hb2 : b2 < 256 := h b2 (by simp)
      have ih := b64DecodeAux_encodeRaw (b3 :: rest)
        (fun x hx => h x (by simp only [List.mem_cons] at hx ⊢; tauto))
      simp only [b64EncodeRaw, b64DecodeAux, b64ValOf_b64CharOf (b0 / 4) (by omega),
        b64ValOf_b64CharOf (b0 % 4 * 16 + b1 / 16) (by omega),
        b64ValOf_b64CharOf (b1 % 16 * 4 + b2 / 64) (by omega),
        b64ValOf_b64CharOf (b2 % 64) (by omega), ih,
        Option.bind_eq_bind, Option.some_bind]
      rw [show b0 / 4 * 4 + (b0 % 4 * 16 + b1 / 16) / 16 = b0 by omega,
        show (b0 % 4 * 16 + b1 / 16) % 16 * 16 + (b1 % 16 * 4 + b2 / 64) / 4 = b1 by omega,
        show (b1 % 16 * 4 + b2 / 64) % 4 * 64 + b2 % 64 = b2 by omega]
      rfl

theorem b64DecodeRaw_encodeRaw (bs : Bytes) (h : ∀ b ∈ bs, b < 256) :
    b64DecodeRaw (b64EncodeRaw bs) = some bs := by
  rw [b64DecodeRaw, b64_filter_noop _ (fun c hc => (b64EncodeRaw_chars bs h c hc).1)]
  exact b64DecodeAux_encodeRaw bs h

/-! ## Supporting lemmas: decimal literals -/

/-- Value of folding decimal digits onto an accumulator, as `takeDigitsAcc`
folds them. -/
def digitFoldVal (acc : Nat) (ds : Bytes) : Nat := ds.foldl (fun a d => a * 10 + (d - 48)) acc

theorem natDecAux_zero (f : Nat) : natDecAux f 0 = [] := by
  cases f <;> simp [natDecAux]

theorem natDecAux_digits : ∀ (f n : Nat), ∀ d ∈ natDecAux f n, 48 ≤ d ∧ d ≤ 57
  | 0, n => by simp [natDecAux]
  | f + 1, n => by
      by_cases h : n = 0
      · simp [natDecAux, h]
      · simp only [natDecAux, h, if_false]
        intro d hd
        rw [List.mem_append] at hd
        rcases hd with hd | hd
        · exact natDecAux_digits f (n / 10) d hd
        · simp only [List.mem_singleton] at hd
          omega

theorem natDecAux_head : ∀ (f n : Nat), 0 < n → n ≤ f →
    ∃ d t, natDecAux f n = d :: t ∧ 49 ≤ d ∧ d ≤ 57
  | 0, n, hn, hf => by omega
  | f + 1, n, hn, hf => by
      rw [natDecAux, if_neg (by omega)]
      by_cases h10 : n < 10
      · rw [show n / 10 = 0 by omega, natDecAux_zero]
        exact ⟨48 + n % 10, [], by simp, by omega, by omega⟩
      · obtain ⟨d, t, he, h1, h2⟩ := natDecAux_head f (n / 10) (by omega) (by omega)
        exact ⟨d, t ++ [48 + n % 10], by rw [he]; simp, h1, h2⟩

theorem takeDigitsAcc_append :
    ∀ (ds : Bytes), (∀ d ∈ ds, 48 ≤ d ∧ d ≤ 57) →
    ∀ (rest : Bytes), (∀ b, rest.head? = some b → ¬(48 ≤ b ∧ b ≤ 57)) → ∀ acc,
    takeDigitsAcc (ds ++ rest) acc = (digitFoldVal acc ds, rest)
  | [], _, rest, hrest, acc => by
      cases rest with
      | nil => rfl
      | cons b r =>
          have hb := hrest b rfl
          simp only [List.nil_append, takeDigitsAcc, digitFoldVal, List.foldl_nil, if_neg hb]
  | d :: ds, hds, rest, hrest, acc => by
      have hd := hds d (List.mem_cons_self d ds)
      simp only [List.cons_append, takeDigitsAcc, if_pos hd, List.append_eq]
      rw [takeDigitsAcc_append ds (fun x hx => hds x (List.mem_cons_of_mem d hx)) rest hrest]
      simp [digitFoldVal]

theorem digitFoldVal_append_one (acc : Nat) (l : Bytes) (d : Nat) :
    digitFoldVal acc (l ++ [d]) = digitFoldVal acc l * 10 + (d - 48) := by
  simp [digitFoldVal]

theorem digitFoldVal_natDecAux : ∀ (f n acc : Nat), n ≤ f →
    digitFoldVal acc (natDecAux f n) = acc * 10 ^ (natDecAux f n).length + n
  | f, 0, acc, _ => by
      rw [natDecAux_zero]
      simp [digitFoldVal]
  | 0, n + 1, acc, h => by omega
  | f + 1, n + 1, acc, h => by
      rw [natDecAux, if_neg (by omega), digitFoldVal_append_one,
        digitFoldVal_natDecAux f ((n + 1) / 10) acc (by omega)]
      rw [show 48 + (n + 1) % 10 - 48 = (n + 1) % 10 by omega]
      rw [List.length_append, List.length_singleton, pow_succ]
      rw [Nat.add_mul, ← Nat.mul_assoc]
      generalize acc * 10 ^ (natDecAux f ((n + 1) / 10)).length * 10 = M
      omega

theorem jsonParseNatRaw_natDec (n : Nat) (rest : Bytes)
    (hrest : ∀ b, rest.head? = some b → ¬(48 ≤ b ∧ b ≤ 57)) :
    jsonParseNatRaw (natDec n ++ rest) = some (n, rest) := by
  by_cases h0 : n = 0
  · subst h0
    cases rest with
    | nil => rfl
    | cons b r =>
        have hb := hrest b rfl
        rw [natDec, if_pos rfl, List.cons_append, List.nil_append]
        simp only [jsonParseNatRaw]
        simp [hb]
  · rw [natDec, if_neg h0]
    obtain ⟨d, t, he, h1, h2⟩ := natDecAux_head (n + 1) n (by omega) (by omega)
    rw [he, List.cons_append]
    simp only [jsonParseNatRaw]
    rw [if_neg (by omega), if_pos (by omega)]
    have hdig : ∀ x ∈ t, 48 ≤ x ∧ x ≤ 57 := by
      intro x hx
      exact natDecAux_digits (n + 1) n x (by rw [he]; exact List.mem_cons_of_mem d hx)
    rw [takeDigitsAcc_append t hdig rest hrest (d - 48)]
    have hv := digitFoldVal_natDecAux (n + 1) n 0 (by omega)
    rw [he] at hv
    simp only [digitFoldVal, List.foldl_cons, Nat.zero_mul, Nat.zero_add] at hv
    simp only [digitFoldVal] at *
    rw [hv]

theorem notFloatHead_of (rest : Bytes)
    (hrest : ∀ b, rest.head? = some b → b ≠ 46 ∧ b ≠ 101 ∧ b ≠ 69) :
    notFloatHead rest = true := by
  cases rest with
  | nil => rfl
  | cons b r =>
      have hb := hrest b rfl
      simp only [notFloatHead, Bool.not_eq_true', Bool.or_eq_false_iff, beq_eq_false_iff_ne,
        ne_eq]
      exact ⟨⟨hb.1, hb.2.1⟩, hb.2.2⟩

theorem jsonParseInt_intDec (e : Int) (h1 : -(2 ^ 63) ≤ e) (h2 : e < 2 ^ 63) (rest : Bytes)
    (hrest : ∀ b, rest.head? = some b →
      ¬(48 ≤ b ∧ b ≤ 57) ∧ b ≠ 46 ∧ b ≠ 101 ∧ b ≠ 69) :
    jsonParseInt (intDec e ++ rest) = some (e, rest) := by
  have hfl := notFloatHead_of rest (fun b hb => (hrest b hb).2)
  rcases lt_or_le e 0 with hneg | hpos
  · have hnat := jsonParseNatRaw_natDec (-e).toNat rest (fun b hb => (hrest b hb).1)
    rw [intDec, if_pos hneg, List.cons_append, jsonParseInt.eq_1, hnat, Option.some_bind]
    rw [if_pos ⟨by omega, hfl⟩]
    have hc : (((-e).toNat : Int)) = -e := Int.toNat_of_nonneg (by omega)
    rw [hc, neg_neg]
  · have hnat := jsonParseNatRaw_natDec e.toNat rest (fun b hb => (hrest b hb).1)
    rw [intDec, if_neg (by omega)]
    obtain ⟨d, t, he, hd1, hd2⟩ : ∃ d t, natDec e.toNat = d :: t ∧ 48 ≤ d ∧ d ≤ 57 := by
      by_cases h0 : e.toNat = 0
      · exact ⟨48, [], by simp [natDec, h0], by omega, by omega⟩
      · obtain ⟨d, t, he, hd1, hd2⟩ := natDecAux_head (e.toNat + 1) e.toNat (by omega) (by omega)
        exact ⟨d, t, by rw [natDec, if_neg h0]; exact he, by omega, hd2⟩
    rw [he, List.cons_append] at hnat ⊢
    rw [jsonParseInt.eq_2 _ (by rintro r hr; rw [List.cons.injEq] at hr; omega), hnat,
      Option.some_bind]
    have hlt : ((e.toNat : Int)) < 2 ^ 63 := by rw [Int.toNat_of_nonneg hpos]; exact h2
    rw [if_pos ⟨hlt, hfl⟩, Int.toNat_of_nonneg hpos]

/-! ## Supporting lemmas: UTF-8 -/

/-- Valid Unicode scalar values: at most 1114111 and not a surrogate. -/
def ValidRune (r : Nat) : Prop := r < 55296 ∨ (57343 < r ∧ r ≤ 1114111)

instance (r : Nat) : Decidable (ValidRune r) := by
  unfold ValidRune
  infer_instance

theorem utf8Encode_nil : utf8Encode [] = [] := rfl

theorem utf8Encode_cons (r : Nat) (rs : List Nat) :
    utf8Encode (r :: rs) = utf8EncodeChar r ++ utf8Encode rs := by
  simp [utf8Encode]

theorem utf8EncodeChar_lt_256 (r : Nat) (h : r ≤ 1114111) : ∀ b ∈ utf8EncodeChar r, b < 256 := by
  intro b hb
  rw [utf8EncodeChar] at hb
  split_ifs at hb <;> simp only [List.mem_cons, List.not_mem_nil, or_false] at hb <;>
    rcases hb with rfl | rfl | rfl | rfl <;> omega

theorem utf8Encode_lt_256 (rs : List Nat) (h : ∀ r ∈ rs, ValidRune r) :
    ∀ b ∈ utf8Encode rs, b < 256 := by
  induction rs with
  | nil => simp [utf8Encode]
  | cons r rs ih =>
      rw [utf8Encode_cons]
      intro b hb
      rcases List.mem_append.mp hb with hb | hb
      · have hr := h r (List.mem_cons_self r rs)
        exact utf8EncodeChar_lt_256 r (by rcases hr with h1 | h1 <;> omega) b hb
      · exact ih (fun x hx => h x (List.mem_cons_of_mem r hx)) b hb

theorem utf8EncodeChar_high (r : Nat) (h1 : 128 ≤ r) (h2 : r ≤ 1114111) :
    ∀ b ∈ utf8EncodeChar r, 128 ≤ b := by
  intro b hb
  rw [utf8EncodeChar] at hb
  split_ifs at hb <;> simp only [List.mem_cons, List.not_mem_nil, or_false] at hb <;>
    first
      | omega
      | (rcases hb with rfl | rfl | rfl | rfl <;> omega)
      | (rcases hb with rfl | rfl | rfl <;> omega)
      | (rcases hb with rfl | rfl <;> omega)

theorem utf8DecodeFirst_encodeChar (r : Nat) (hr : ValidRune r) (tail : Bytes) :
    utf8DecodeFirst (utf8EncodeChar r ++ tail) = some (r, (utf8EncodeChar r).length) := by
  have hub : r ≤ 1114111 := by rcases hr with h | h <;> omega
  have hsur : r < 55296 ∨ 57343 < r := by rcases hr with h | h <;> omega
  by_cases hc1 : r < 128
  · rw [show utf8EncodeChar r = [r] from by rw [utf8EncodeChar, if_pos hc1]]
    simp only [List.cons_append, List.nil_append, utf8DecodeFirst, if_pos hc1, List.length_cons,
      List.length_nil]
  · by_cases hc2 : r < 2048
    · rw [show utf8EncodeChar r = [192 + r / 64, 128 + r % 64] from by
        rw [utf8EncodeChar, if_neg hc1, if_pos hc2]]
      simp only [List.cons_append, List.nil_append, utf8DecodeFirst]
      rw [if_neg (by omega), if_neg (by omega), if_pos (by omega), if_pos (by omega)]
      simp only [Option.some.injEq, Prod.mk.injEq, List.length_cons, List.length_nil, and_true]
      omega
    · by_cases hc3 : r < 65536
      · rw [show utf8EncodeChar r = [224 + r / 4096, 128 + r / 64 % 64, 128 + r % 64] from by
          rw [utf8EncodeChar, if_neg hc1, if_neg hc2, if_pos hc3]]
        simp only [List.cons_append, List.nil_append, utf8DecodeFirst]
        rw [if_neg (by omega), if_neg (by omega), if_neg (by omega), if_pos (by omega)]
        by_cases hA : r < 4096
        · rw [show (if 224 + r / 4096 = 224 then 160 else 128) = 160 from if_pos (by omega),
            show (if 224 + r / 4096 = 237 then 160 else 192) = 192 from if_neg (by omega)]
          rw [if_pos (by omega)]
          simp only [Option.some.injEq, Prod.mk.injEq, List.length_cons, List.length_nil,
            and_true]
          omega
        · by_cases hB : 53248 ≤ r ∧ r < 57344
          · rw [show (if 224 + r / 4096 = 224 then 160 else 128) = 128 from if_neg (by omega),
              show (if 224 + r / 4096 = 237 then 160 else 192) = 160 from if_pos (by omega)]
            rw [if_pos (by omega)]
            simp only [Option.some.injEq, Prod.mk.injEq, List.length_cons, List.length_nil,
              and_true]
            omega
          · rw [show (if 224 + r / 4096 = 224 then 160 else 128) = 128 from if_neg (by omega),
              show (if 224 + r / 4096 = 237 then 160 else 192) = 192 from if_neg (by omega)]
            rw [if_pos (by omega)]
            simp only [Option.some.injEq, Prod.mk.injEq, List.length_cons, List.length_nil,
              and_true]
            omega
      · rw [show utf8EncodeChar r =
            [240 + r / 262144, 128 + r / 4096 % 64, 128 + r / 64 % 64, 128 + r % 64] from by
          rw [utf8EncodeChar, if_neg hc1, if_neg hc2, if_neg hc3]]
        simp only [List.cons_append, List.nil_append, utf8DecodeFirst]
        rw [if_neg (by omega), if_neg (by omega), if_neg (by omega), if_neg (by omega),
          if_pos (by omega)]
        by_cases hA : r < 262144
        · rw [show (if 240 + r / 262144 = 240 then 144 else 128) = 144 from if_pos (by omega),
            show (if 240 + r / 262144 = 244 then 144 else 192) = 192 from if_neg (by omega)]
          rw [if_pos (by omega)]
          simp only [Option.some.injEq, Prod.mk.injEq, List.length_cons, List.length_nil,
            and_true]
          omega
        · by_cases hB : 1048576 ≤ r
          · rw [show (if 240 + r / 262144 = 240 then 144 else 128) = 128 from if_neg (by omega),
              show (if 240 + r / 262144 = 244 then 144 else 192) = 144 from if_pos (by omega)]
            rw [if_pos (by omega)]
            simp only [Option.some.injEq, Prod.mk.injEq, List.length_cons, List.length_nil,
              and_true]
            omega
          · rw [show (if 240 + r / 262144 = 240 then 144 else 128) = 128 from if_neg (by omega),
              show (if 240 + r / 262144 = 244 then 144 else 192) = 192 from if_neg (by omega)]
            rw [if_pos (by omega)]
            simp only [Option.some.injEq, Prod.mk.injEq, List.length_cons, List.length_nil,
              and_true]
            omega

/-! ## Supporting lemmas: JSON string escaping round trip -/

theorem jsonUnescapeStr_pass (f b : Nat) (l : Bytes) (h1 : b ≠ 34) (h2 : b ≠ 92) (h3 : 32 ≤ b) :
    jsonUnescapeStr (f + 1) (b :: l) = (jsonUnescapeStr f l).map (fun p => (b :: p.1, p.2)) := by
  simp only [jsonUnescapeStr, if_neg h1, if_neg h2, if_neg (show ¬ b < 32 by omega)]

theorem jsonUnescapeStr_esc (f e v : Nat) (l : Bytes) (he : jsonEscChar e = some v)
    (hu : e ≠ 117) :
    jsonUnescapeStr (f + 1) (92 :: e :: l) =
      (jsonUnescapeStr f l).map (fun p => (v :: p.1, p.2)) := by
  simp only [jsonUnescapeStr, if_neg (show (92 : Nat) ≠ 34 by omega), if_pos rfl, if_neg hu, he,
    ite_true]

theorem jsonUnescapeStr_uesc (f : Nat) (r2 out r3 : Bytes) (hq : jsonUEsc r2 = some (out, r3)) :
    jsonUnescapeStr (f + 1) (92 :: 117 :: r2) =
      (jsonUnescapeStr f r3).map (fun p => (out ++ p.1, p.2)) := by
  simp only [jsonUnescapeStr, if_neg (show (92 : Nat) ≠ 34 by omega), if_pos rfl, hq, ite_true]

theorem jsonUEsc_plain (h1 h2 h3 h4 v : Nat) (l : Bytes)
    (hv : hex4Val h1 h2 h3 h4 = some v) (hs : v < 55296 ∨ 57344 ≤ v) :
    jsonUEsc (h1 :: h2 :: h3 :: h4 :: l) = some (utf8EncodeChar v, l) := by
  simp only [jsonUEsc, hv]
  rw [if_neg (by omega), if_neg (by omega)]

theorem hex4Val_of_byte (b : Nat) (hb : b < 256) :
    hex4Val 48 48 (hexDigitOf (b / 16)) (hexDigitOf (b % 16)) = some b := by
  have e1 : hexValOf 48 = some 0 := rfl
  have e2 := hexValOf_hexDigitOf (b / 16) (by omega)
  have e3 := hexValOf_hexDigitOf (b % 16) (by omega)
  unfold hex4Val
  rw [e1, e2, e3]
  show some (0 * 4096 + 0 * 256 + b / 16 * 16 + b % 16) = some b
  congr 1
  omega

theorem jsonUnescapeStr_passrun :
    ∀ (seg : Bytes), (∀ b ∈ seg, 32 ≤ b ∧ b ≠ 34 ∧ b ≠ 92) →
    ∀ (l : Bytes) (f : Nat), seg.length ≤ f →
    jsonUnescapeStr f (seg ++ l) =
      (jsonUnescapeStr (f - seg.length) l).map (fun p => (seg ++ p.1, p.2))
  | [], _, l, f, hf => by
      simp only [List.nil_append, List.length_nil, Nat.sub_zero]
      rcases jsonUnescapeStr f l with _ | p
      · rfl
      · rfl
  | b :: seg, h, l, f, hf => by
      obtain ⟨g, rfl⟩ : ∃ g, f = g + 1 := ⟨f - 1, by simp at hf; omega⟩
      have hb := h b (List.mem_cons_self b seg)
      rw [List.cons_append, jsonUnescapeStr_pass g b _ hb.2.1 hb.2.2 hb.1,
        jsonUnescapeStr_passrun seg (fun x hx => h x (List.mem_cons_of_mem b hx)) l g
          (by simp only [List.length_cons] at hf; omega)]
      rw [show g + 1 - (b :: seg).length = g - seg.length from by
        simp only [List.length_cons]; omega]
      rw [Option.map_map]
      rfl

theorem jsonUnescapeStr_plainrun (l : Bytes) (h : ∀ b ∈ l, 32 ≤ b ∧ b ≠ 34 ∧ b ≠ 92)
    (rest : Bytes) (f : Nat) (hf : l.length + 1 ≤ f) :
    jsonUnescapeStr f (l ++ 34 :: rest) = some (l, rest) := by
  rw [jsonUnescapeStr_passrun l h (34 :: rest) f (by omega)]
  obtain ⟨g, hg⟩ : ∃ g, f - l.length = g + 1 := ⟨f - l.length - 1, by omega⟩
  rw [hg]
  simp only [jsonUnescapeStr, if_pos rfl, ite_true, Option.map_some]
  simp

/-- Bytes whose JSON escape is themselves. -/
def PlainByte (b : Nat) : Prop :=
  32 ≤ b ∧ b < 128 ∧ b ≠ 34 ∧ b ≠ 92 ∧ b ≠ 60 ∧ b ≠ 62 ∧ b ≠ 38

instance (b : Nat) : Decidable (PlainByte b) := by
  unfold PlainByte
  infer_instance

theorem jsonEscSimple_plain (b : Nat) (h : PlainByte b) : jsonEscSimple b = some [b] := by
  obtain ⟨h1, h2, h3, h4, h5, h6, h7⟩ := h
  simp only [jsonEscSimple]
  rw [if_neg h3, if_neg h4, if_neg (by omega), if_neg (by omega), if_neg (by omega),
    if_neg (by omega), if_neg (by omega), if_pos h2]

theorem jsonEscSimple_low (b : Nat) (hl : b < 32) (h10 : b ≠ 10) (h13 : b ≠ 13) (h9 : b ≠ 9) :
    jsonEscSimple b = some (uEsc b) := by
  simp only [jsonEscSimple]
  rw [if_neg (by omega), if_neg (by omega), if_neg h10, if_neg h13, if_neg h9,
    if_neg (by omega), if_pos hl]

theorem jsonEscSimple_high (b : Nat) (h : 128 ≤ b) : jsonEscSimple b = none := by
  have e34 : b ≠ 34 := by omega
  have e92 : b ≠ 92 := by omega
  have e10 : b ≠ 10 := by omega
  have e13 : b ≠ 13 := by omega
  have e9 : b ≠ 9 := by omega
  have ehtml : ¬(b = 60 ∨ b = 62 ∨ b = 38) := by omega
  have e32 : ¬(b < 32) := by omega
  have e128 : ¬(b < 128) := by omega
  simp only [jsonEscSimple, if_neg e34, if_neg e92, if_neg e10, if_neg e13, if_neg e9,
    if_neg ehtml, if_neg e32, if_neg e128]

theorem jsonEscapeBytes_simple (f b : Nat) (out l : Bytes) (h : jsonEscSimple b = some out) :
    jsonEscapeBytes (f + 1) (b :: l) = out ++ jsonEscapeBytes f l := by
  simp only [jsonEscapeBytes, h]

theorem jsonEscapeBytes_plainrun :
    ∀ (l : Bytes), (∀ b ∈ l, PlainByte b) → ∀ (f : Nat), l.length ≤ f →
    jsonEscapeBytes f l = l
  | [], _, f, _ => by cases f <;> rfl
  | b :: l, h, f, hf => by
      obtain ⟨g, rfl⟩ : ∃ g, f = g + 1 := ⟨f - 1, by simp at hf; omega⟩
      rw [jsonEscapeBytes_simple g b [b] l (jsonEscSimple_plain b (h b (List.mem_cons_self b l)))]
      rw [jsonEscapeBytes_plainrun l (fun x hx => h x (List.mem_cons_of_mem b hx)) g
        (by simp at hf; omega)]
      rfl

theorem utf8EncodeChar_ne_nil (r : Nat) : utf8EncodeChar r ≠ [] := by
  rw [utf8EncodeChar]
  split_ifs <;> simp

theorem jsonEscapeBytes_multi (f : Nat) (r : Nat) (hr : ValidRune r) (h128 : 128 ≤ r)
    (h2028 : r ≠ 8232) (h2029 : r ≠ 8233) (l : Bytes) :
    jsonEscapeBytes (f + 1) (utf8EncodeChar r ++ l) =
      utf8EncodeChar r ++ jsonEscapeBytes f l := by
  have hub : r ≤ 1114111 := by rcases hr with h | h <;> omega
  have hdec := utf8DecodeFirst_encodeChar r hr l
  rcases hsh : utf8EncodeChar r with _ | ⟨b0, brest⟩
  · exact absurd hsh (utf8EncodeChar_ne_nil r)
  have hb0 : 128 ≤ b0 := by
    have := utf8EncodeChar_high r h128 hub b0 (by rw [hsh]; exact List.mem_cons_self _ _)
    omega
  rw [hsh] at hdec
  rw [List.cons_append] at hdec ⊢
  simp only [jsonEscapeBytes, jsonEscSimple_high b0 hb0, hdec]
  rw [if_neg h2028, if_neg h2029]
  simp only [List.length_cons, Nat.add_sub_cancel]
  rw [List.take_succ_cons, List.take_left, List.drop_left]

theorem jsonUnescapeStr_escape :
    ∀ (rs : List Nat), (∀ x ∈ rs, ValidRune x) →
    ∀ (fe : Nat), (utf8Encode rs).length ≤ fe →
    ∀ (rest : Bytes) (fu : Nat), (jsonEscapeBytes fe (utf8Encode rs)).length + 1 ≤ fu →
    jsonUnescapeStr fu (jsonEscapeBytes fe (utf8Encode rs) ++ 34 :: rest) =
      some (utf8Encode rs, rest)
  | [], _, fe, _, rest, fu, hfu => by
      rw [utf8Encode_nil] at hfu ⊢
      rw [show jsonEscapeBytes fe [] = [] from by cases fe <;> rfl] at hfu ⊢
      obtain ⟨u, rfl⟩ : ∃ u, fu = u + 1 := ⟨fu - 1, by omega⟩
      simp only [List.nil_append, jsonUnescapeStr, if_pos rfl, ite_true]
  | r :: rs, h, fe, hfe, rest, fu, hfu => by
      have hvr : ValidRune r := h r (List.mem_cons_self r rs)
      have hval : ∀ x ∈ rs, ValidRune x := fun x hx => h x (List.mem_cons_of_mem r hx)
      have hub : r ≤ 1114111 := by rcases hvr with hq | hq <;> omega
      have hBne := utf8EncodeChar_ne_nil r
      have hBlen : 1 ≤ (utf8EncodeChar r).length := by
        rcases hq : utf8EncodeChar r with _ | ⟨x, xs⟩
        · exact absurd hq hBne
        · simp
      rw [utf8Encode_cons] at hfe hfu ⊢
      obtain ⟨g, rfl⟩ : ∃ g, fe = g + 1 := ⟨fe - 1, by
        rw [List.length_append] at hfe; omega⟩
      have hgE : (utf8Encode rs).length ≤ g := by
        rw [List.length_append] at hfe; omega
      have IH : ∀ fu', (jsonEscapeBytes g (utf8Encode rs)).length + 1 ≤ fu' →
          jsonUnescapeStr fu' (jsonEscapeBytes g (utf8Encode rs) ++ 34 :: rest) =
            some (utf8Encode rs, rest) :=
        fun fu' hfu' => jsonUnescapeStr_escape rs hval g hgE rest fu' hfu'
      by_cases hA : r < 128
      · have hB : utf8EncodeChar r = [r] := by rw [utf8EncodeChar, if_pos hA]
        rw [hB] at hfu ⊢
        by_cases h34 : r = 34
        · subst h34
          have hesc : jsonEscapeBytes (g + 1) ([34] ++ utf8Encode rs) =
              [92, 34] ++ jsonEscapeBytes g (utf8Encode rs) :=
            jsonEscapeBytes_simple g 34 [92, 34] (utf8Encode rs) rfl
          rw [hesc] at hfu ⊢
          rw [List.length_append] at hfu
          obtain ⟨u, rfl⟩ : ∃ u, fu = u + 1 := ⟨fu - 1, by omega⟩
          rw [List.append_assoc, List.cons_append, List.cons_append, List.nil_append,
            jsonUnescapeStr_esc u 34 34 _ rfl (by omega), IH u (by simp at hfu; omega)]
          rfl
        · by_cases h92 : r = 92
          · subst h92
            have hesc : jsonEscapeBytes (g + 1) ([92] ++ utf8Encode rs) =
                [92, 92] ++ jsonEscapeBytes g (utf8Encode rs) :=
              jsonEscapeBytes_simple g 92 [92, 92] (utf8Encode rs) rfl
            rw [hesc] at hfu ⊢
            rw [List.length_append] at hfu
            obtain ⟨u, rfl⟩ : ∃ u, fu = u + 1 := ⟨fu - 1, by omega⟩
            rw [List.append_assoc, List.cons_append, List.cons_append, List.nil_append,
              jsonUnescapeStr_esc u 92 92 _ rfl (by omega), IH u (by simp at hfu; omega)]
            rfl
          · by_cases h10 : r = 10
            · subst h10
              have hesc : jsonEscapeBytes (g + 1) ([10] ++ utf8Encode rs) =
                  [92, 110] ++ jsonEscapeBytes g (utf8Encode rs) :=
                jsonEscapeBytes_simple g 10 [92, 110] (utf8Encode rs) rfl
              rw [hesc] at hfu ⊢
              rw [List.length_append] at hfu
              obtain ⟨u, rfl⟩ : ∃ u, fu = u + 1 := ⟨fu - 1, by omega⟩
              rw [List.append_assoc, List.cons_append, List.cons_append, List.nil_append,
                jsonUnescapeStr_esc u 110 10 _ rfl (by omega), IH u (by simp at hfu; omega)]
              rfl
            · by_cases h13 : r = 13
              · subst h13
                have hesc : jsonEscapeBytes (g + 1) ([13] ++ utf8Encode rs) =
                    [92, 114] ++ jsonEscapeBytes g (utf8Encode rs) :=
                  jsonEscapeBytes_simple g 13 [92, 114] (utf8Encode rs) rfl
                rw [hesc] at hfu ⊢
                rw [List.length_append] at hfu
                obtain ⟨u, rfl⟩ : ∃ u, fu = u + 1 := ⟨fu - 1, by omega⟩
                rw [List.append_assoc, List.cons_append, List.cons_append, List.nil_append,
                  jsonUnescapeStr_esc u 114 13 _ rfl (by omega), IH u (by simp at hfu; omega)]
                rfl
              · by_cases h9 : r = 9
                · subst h9
                  have hesc : jsonEscapeBytes (g + 1) ([9] ++ utf8Encode rs) =
                      [92, 116] ++ jsonEscapeBytes g (utf8Encode rs) :=
                    jsonEscapeBytes_simple g 9 [92, 116] (utf8Encode rs) rfl
                  rw [hesc] at hfu ⊢
                  rw [List.length_append] at hfu
                  obtain ⟨u, rfl⟩ : ∃ u, fu = u + 1 := ⟨fu - 1, by omega⟩
                  rw [List.append_assoc, List.cons_append, List.cons_append, List.nil_append,
                    jsonUnescapeStr_esc u 116 9 _ rfl (by omega), IH u (by simp at hfu; omega)]
                  rfl
                · by_cases huesc : r < 32 ∨ r = 60 ∨ r = 62 ∨ r = 38
                  · have hsimp : jsonEscSimple r = some (uEsc r) := by
                      rcases huesc with hlow | rfl | rfl | rfl
                      · exact jsonEscSimple_low r hlow h10 h13 h9
                      · rfl
                      · rfl
                      · rfl
                    have hesc : jsonEscapeBytes (g + 1) ([r] ++ utf8Encode rs) =
                        uEsc r ++ jsonEscapeBytes g (utf8Encode rs) :=
                      jsonEscapeBytes_simple g r (uEsc r) (utf8Encode rs) hsimp
                    rw [hesc] at hfu ⊢
                    rw [List.length_append, show (uEsc r).length = 6 from by simp [uEsc]] at hfu
                    obtain ⟨u, rfl⟩ : ∃ u, fu = u + 1 := ⟨fu - 1, by omega⟩
                    have hq : jsonUEsc (48 :: 48 :: hexDigitOf (r / 16) :: hexDigitOf (r % 16) ::
                        (jsonEscapeBytes g (utf8Encode rs) ++ 34 :: rest)) =
                        some (utf8EncodeChar r,
                          jsonEscapeBytes g (utf8Encode rs) ++ 34 :: rest) :=
                      jsonUEsc_plain _ _ _ _ r _ (hex4Val_of_byte r (by omega)) (by omega)
                    rw [show uEsc r ++ jsonEscapeBytes g (utf8Encode rs) ++ 34 :: rest =
                        92 :: 117 :: (48 :: 48 :: hexDigitOf (r / 16) :: hexDigitOf (r % 16) ::
                          (jsonEscapeBytes g (utf8Encode rs) ++ 34 :: rest)) from by
                      simp [uEsc]]
                    rw [jsonUnescapeStr_uesc u _ _ _ hq, IH u (by omega)]
                    rw [hB]
                    rfl
                  · have hplain : PlainByte r := by
                      unfold PlainByte
                      omega
                    have hesc : jsonEscapeBytes (g + 1) ([r] ++ utf8Encode rs) =
                        [r] ++ jsonEscapeBytes g (utf8Encode rs) :=
                      jsonEscapeBytes_simple g r [r] (utf8Encode rs)
                        (jsonEscSimple_plain r hplain)
                    rw [hesc] at hfu ⊢
                    rw [List.length_append] at hfu
                    obtain ⟨u, rfl⟩ : ∃ u, fu = u + 1 := ⟨fu - 1, by omega⟩
                    rw [List.append_assoc, List.cons_append, List.nil_append,
                      jsonUnescapeStr_pass u r _ (by omega) (by omega) (by omega),
                      IH u (by simp at hfu; omega)]
                    rfl
      · by_cases h2028 : r = 8232
        · subst h2028
          have hB : utf8EncodeChar 8232 = [226, 128, 168] := rfl
          have hdec := utf8DecodeFirst_encodeChar 8232 (by decide)
            (utf8Encode rs)
          rw [hB] at hdec
          have hesc : jsonEscapeBytes (g + 1) (utf8EncodeChar 8232 ++ utf8Encode rs) =
              [92, 117, 50, 48, 50, 56] ++ jsonEscapeBytes g (utf8Encode rs) := by
            rw [hB]
            rw [List.cons_append] at hdec ⊢
            simp only [jsonEscapeBytes, show jsonEscSimple 226 = none from rfl, hdec]
            rw [if_pos trivial]
            rfl
          rw [hB] at hfu ⊢
          rw [hB] at hesc
          rw [hesc] at hfu ⊢
          rw [List.length_append] at hfu
          obtain ⟨u, rfl⟩ : ∃ u, fu = u + 1 := ⟨fu - 1, by omega⟩
          have hq : jsonUEsc (50 :: 48 :: 50 :: 56 ::
              (jsonEscapeBytes g (utf8Encode rs) ++ 34 :: rest)) =
              some (utf8EncodeChar 8232, jsonEscapeBytes g (utf8Encode rs) ++ 34 :: rest) :=
            jsonUEsc_plain _ _ _ _ 8232 _ (by decide) (by omega)
          rw [List.append_assoc, List.cons_append, List.cons_append, List.cons_append,
            List.cons_append, List.cons_append, List.cons_append, List.nil_append]
          rw [jsonUnescapeStr_uesc u _ _ _ hq, IH u (by simp at hfu; omega)]
          rw [hB]
          rfl
        · by_cases h2029 : r = 8233
          · subst h2029
            have hB : utf8EncodeChar 8233 = [226, 128, 169] := rfl
            have hdec := utf8DecodeFirst_encodeChar 8233 (by decide)
              (utf8Encode rs)
            rw [hB] at hdec
            have hesc : jsonEscapeBytes (g + 1) ([226, 128, 169] ++ utf8Encode rs) =
                [92, 117, 50, 48, 50, 57] ++ jsonEscapeBytes g (utf8Encode rs) := by
              rw [List.cons_append] at hdec ⊢
              simp only [jsonEscapeBytes, show jsonEscSimple 226 = none from rfl, hdec]
              rw [if_pos trivial]
              rfl
            rw [hB] at hfu ⊢
            rw [hesc] at hfu ⊢
            rw [List.length_append] at hfu
            obtain ⟨u, rfl⟩ : ∃ u, fu = u + 1 := ⟨fu - 1, by omega⟩
            have hq : jsonUEsc (50 :: 48 :: 50 :: 57 ::
                (jsonEscapeBytes g (utf8Encode rs) ++ 34 :: rest)) =
                some (utf8EncodeChar 8233, jsonEscapeBytes g (utf8Encode rs) ++ 34 :: rest) :=
              jsonUEsc_plain _ _ _ _ 8233 _ (by decide) (by omega)
            rw [List.append_assoc, List.cons_append, List.cons_append, List.cons_append,
              List.cons_append, List.cons_append, List.cons_append, List.nil_append]
            rw [jsonUnescapeStr_uesc u _ _ _ hq, IH u (by simp at hfu; omega)]
            rw [hB]
            rfl
          · have h128 : 128 ≤ r := by omega
            have hesc : jsonEscapeBytes (g + 1) (utf8EncodeChar r ++ utf8Encode rs) =
                utf8EncodeChar r ++ jsonEscapeBytes g (utf8Encode rs) :=
              jsonEscapeBytes_multi g r hvr h128 h2028 h2029 (utf8Encode rs)
            rw [hesc] at hfu ⊢
            rw [List.length_append] at hfu
            have hseg : ∀ b ∈ utf8EncodeChar r, 32 ≤ b ∧ b ≠ 34 ∧ b ≠ 92 := by
              intro b hb
              have := utf8EncodeChar_high r h128 hub b hb
              omega
            rw [List.append_assoc,
              jsonUnescapeStr_passrun (utf8EncodeChar r) hseg _ fu (by omega),
              IH (fu - (utf8EncodeChar r).length) (by omega)]
            rfl

/-! ## Supporting lemmas: byte bounds of the marshalled payload -/

theorem uEsc_lt_256 (b : Nat) (hb : b < 256) : ∀ c ∈ uEsc b, c < 256 := by
  intro c hc
  have h1 := hexDigitOf_range (b / 16) (by omega)
  have h2 := hexDigitOf_range (b % 16) (by omega)
  simp only [uEsc, List.mem_cons, List.not_mem_nil, or_false] at hc
  rcases hc with rfl | rfl | rfl | rfl | rfl | rfl <;> omega

theorem jsonEscSimple_lt_256 (b : Nat) (out : Bytes) (hb : b < 256)
    (h : jsonEscSimple b = some out) : ∀ c ∈ out, c < 256 := by
  simp only [jsonEscSimple] at h
  split_ifs at h <;> rw [Option.some.injEq] at h <;> subst h
  · intro c hc
    simp only [List.mem_cons, List.not_mem_nil, or_false] at hc
    rcases hc with rfl | rfl <;> omega
  · intro c hc
    simp only [List.mem_cons, List.not_mem_nil, or_false] at hc
    rcases hc with rfl | rfl <;> omega
  · intro c hc
    simp only [List.mem_cons, List.not_mem_nil, or_false] at hc
    rcases hc with rfl | rfl <;> omega
  · intro c hc
    simp only [List.mem_cons, List.not_mem_nil, or_false] at hc
    rcases hc with rfl | rfl <;> omega
  · intro c hc
    simp only [List.mem_cons, List.not_mem_nil, or_false] at hc
    rcases hc with rfl | rfl <;> omega
  · exact uEsc_lt_256 b hb
  · exact uEsc_lt_256 b hb
  · intro c hc
    simp only [List.mem_cons, List.not_mem_nil, or_false] at hc
    rcases hc with rfl
    omega

theorem jsonEscapeBytes_lt_256 :
    ∀ (f : Nat) (l : Bytes), (∀ b ∈ l, b < 256) → ∀ c ∈ jsonEscapeBytes f l, c < 256
  | 0, l, _ => by simp [jsonEscapeBytes]
  | f + 1, [], _ => by simp [jsonEscapeBytes]
  | f + 1, b :: rest, h => by
      have hb : b < 256 := h b (List.mem_cons_self b rest)
      have hrest : ∀ x ∈ rest, x < 256 := fun x hx => h x (List.mem_cons_of_mem b hx)
      have hdrop : ∀ k : Nat, ∀ x ∈ rest.drop k, x < 256 :=
        fun k x hx => hrest x (List.mem_of_mem_drop hx)
      rcases hs : jsonEscSimple b with _ | out
      · rcases hd : utf8DecodeFirst (b :: rest) with _ | ⟨r, size⟩
        · simp only [jsonEscapeBytes, hs, hd]
          intro c hc
          rcases List.mem_append.mp hc with hc | hc
          · simp only [List.mem_cons, List.not_mem_nil, or_false] at hc
            rcases hc with rfl | rfl | rfl | rfl | rfl | rfl <;> omega
          · exact jsonEscapeBytes_lt_256 f rest hrest c hc
        · simp only [jsonEscapeBytes, hs, hd]
          split_ifs with h1 h2 <;> intro c hc <;> rcases List.mem_append.mp hc with hc | hc
          · simp only [List.mem_cons, List.not_mem_nil, or_false] at hc
            rcases hc with rfl | rfl | rfl | rfl | rfl | rfl <;> omega
          · exact jsonEscapeBytes_lt_256 f _ (hdrop _) c hc
          · simp only [List.mem_cons, List.not_mem_nil, or_false] at hc
            rcases hc with rfl | rfl | rfl | rfl | rfl | rfl <;> omega
          · exact jsonEscapeBytes_lt_256 f _ (hdrop _) c hc
          · exact h c (List.take_subset _ _ hc)
          · exact jsonEscapeBytes_lt_256 f _ (hdrop _) c hc
      · simp only [jsonEscapeBytes, hs]
        intro c hc
        rcases List.mem_append.mp hc with hc | hc
        · exact jsonEscSimple_lt_256 b out hb hs c hc
        · exact jsonEscapeBytes_lt_256 f rest hrest c hc

theorem natDec_digits (n : Nat) : ∀ b ∈ natDec n, 48 ≤ b ∧ b ≤ 57 := by
  rw [natDec]
  split_ifs
  · intro b hb
    simp only [List.mem_singleton] at hb
    omega
  · exact natDecAux_digits (n + 1) n

theorem intDec_lt_256 (e : Int) : ∀ b ∈ intDec e, b < 256 := by
  rw [intDec]
  split_ifs
  · intro b hb
    rcases List.mem_cons.mp hb with rfl | hb
    · omega
    · have := natDec_digits (-e).toNat b hb
      omega
  · intro b hb
    have := natDec_digits e.toNat b hb
    omega

theorem jsonEscape_lt_256 (s : Bytes) (h : ∀ b ∈ s, b < 256) : ∀ c ∈ jsonEscape s, c < 256 :=
  jsonEscapeBytes_lt_256 s.length s h

theorem jsonMarshalCookie_lt_256 (c : Cookie) (hA : ∀ b ∈ c.AuthData, b < 256)
    (hB : ∀ b ∈ c.By, b < 256) : ∀ b ∈ jsonMarshalCookie c, b < 256 := by
  intro b hb
  simp only [jsonMarshalCookie, List.append_assoc, List.mem_append, List.mem_cons,
    List.not_mem_nil, or_false] at hb
  rcases hb with hb | hb | hb | hb | hb | hb | hb | hb | hb | hb | hb | hb | hb | hb <;>
    first
      | omega
      | (exact jsonEscape_lt_256 _ hA b hb)
      | (exact jsonEscape_lt_256 _ hB b hb)
      | (exact intDec_lt_256 _ b hb)
      | (revert hb; revert b; decide)

/-! ## Supporting lemmas: json round trip for the marshalled Cookie -/

theorem intDec_head (e : Int) : ∃ d t, intDec e = d :: t ∧ 45 ≤ d ∧ d ≤ 57 := by
  rw [intDec]
  split_ifs with hneg
  · exact ⟨45, natDec (-e).toNat, rfl, by omega, by omega⟩
  · by_cases h0 : e.toNat = 0
    · exact ⟨48, [], by rw [natDec, if_pos h0], by omega, by omega⟩
    · obtain ⟨d, t, he, h1, h2⟩ := natDecAux_head (e.toNat + 1) e.toNat (by omega) (by omega)
      exact ⟨d, t, by rw [natDec, if_neg h0]; exact he, by omega, h2⟩

theorem jsonUnmarshalCookie_obj (R : Bytes) :
    jsonUnmarshalCookie (123 :: 34 :: R) =
      match parseMembers (34 :: R).length (34 :: R) zeroCookie with
      | none => none
      | some p => if skipWs p.2 = [] then some p.1 else none := rfl

theorem parseMembers_member (f : Nat) (K T : Bytes) (c : Cookie)
    (hK : ∀ b ∈ K, 32 ≤ b ∧ b ≠ 34 ∧ b ≠ 92) :
    parseMembers (f + 1) (34 :: (K ++ 34 :: 58 :: T)) c =
      match assignField c K (skipWs T) with
      | none => none
      | some vp =>
        match skipWs vp.2 with
        | 44 :: r7 => parseMembers f r7 vp.1
        | 125 :: r7 => some (vp.1, r7)
        | _ => none := by
  have hun := jsonUnescapeStr_plainrun K hK (58 :: T) (K ++ 34 :: 58 :: T).length
    (by simp only [List.length_append, List.length_cons]; omega)
  simp only [parseMembers,
    show skipWs (34 :: (K ++ 34 :: 58 :: T)) = 34 :: (K ++ 34 :: 58 :: T) from rfl, hun,
    show skipWs (58 :: T) = 58 :: T from rfl]

theorem assignField_auth (c : Cookie) (rs : List Nat) (hval : ∀ x ∈ rs, ValidRune x)
    (REST : Bytes) :
    assignField c (ascii ("auth_data")) (34 :: (jsonEscape (utf8Encode rs) ++ 34 :: REST)) =
      some ({ c with AuthData := utf8Encode rs }, REST) := by
  have hesc : jsonEscape (utf8Encode rs) = jsonEscapeBytes (utf8Encode rs).length
      (utf8Encode rs) := rfl
  have hun := jsonUnescapeStr_escape rs hval (utf8Encode rs).length le_rfl REST
    (jsonEscapeBytes (utf8Encode rs).length (utf8Encode rs) ++ 34 :: REST).length
    (by simp only [List.length_append, List.length_cons]; omega)
  rw [← hesc] at hun
  have hnn : ¬((34 :: (jsonEscape (utf8Encode rs) ++ 34 :: REST)).take 4 = ascii ("null")) := by
    rw [List.take_succ_cons]
    intro hq
    rw [show ascii ("null") = 110 :: 117 :: 108 :: 108 :: [] from rfl, List.cons.injEq] at hq
    omega
  simp only [assignField]
  rw [if_pos (by decide), if_neg hnn]
  simp only [hun]
  rfl

theorem assignField_expires (c : Cookie) (e : Int) (he1 : -(2 ^ 63) ≤ e) (he2 : e < 2 ^ 63)
    (REST : Bytes) :
    assignField c (ascii ("expires")) (intDec e ++ 44 :: REST) =
      some ({ c with ExpiresUnix := e }, 44 :: REST) := by
  obtain ⟨d, t, hD, hd1, hd2⟩ := intDec_head e
  have hint := jsonParseInt_intDec e he1 he2 (44 :: REST) (by
    intro b hb
    simp only [List.head?_cons, Option.some.injEq] at hb
    subst hb
    refine ⟨by omega, by omega, by omega, by omega⟩)
  have hnn : ¬((intDec e ++ 44 :: REST).take 4 = ascii ("null")) := by
    rw [hD, List.cons_append, List.take_succ_cons]
    intro hq
    rw [show ascii ("null") = 110 :: 117 :: 108 :: 108 :: [] from rfl, List.cons.injEq] at hq
    omega
  simp only [assignField]
  rw [if_neg (by decide), if_pos (by decide), if_neg hnn]
  simp only [hint]
  rfl

theorem assignField_by (c : Cookie) (REST : Bytes) :
    assignField c (ascii ("by")) (34 :: (GeneratedByStr ++ 34 :: REST)) =
      some ({ c with By := GeneratedByStr }, REST) := by
  have hun := jsonUnescapeStr_plainrun GeneratedByStr (by decide) REST
    (GeneratedByStr ++ 34 :: REST).length
    (by simp only [List.length_append, List.length_cons]; omega)
  have hnn : ¬((34 :: (GeneratedByStr ++ 34 :: REST)).take 4 = ascii ("null")) := by
    rw [List.take_succ_cons]
    intro hq
    rw [show ascii ("null") = 110 :: 117 :: 108 :: 108 :: [] from rfl, List.cons.injEq] at hq
    omega
  simp only [assignField]
  rw [if_neg (by decide), if_neg (by decide), if_pos (by decide), if_neg hnn]
  simp only [hun]
  rfl

theorem unmarshal_marshal (rs : List Nat) (hval : ∀ x ∈ rs, ValidRune x) (e : Int)
    (he1 : -(2 ^ 63) ≤ e) (he2 : e < 2 ^ 63) :
    jsonUnmarshalCookie (jsonMarshalCookie ⟨utf8Encode rs, e, GeneratedByStr⟩) =
      some ⟨utf8Encode rs, e, GeneratedByStr⟩ := by
  have hK1 : ∀ b ∈ ascii ("auth_data"), 32 ≤ b ∧ b ≠ 34 ∧ b ≠ 92 := by decide
  have hK2 : ∀ b ∈ ascii ("expires"), 32 ≤ b ∧ b ≠ 34 ∧ b ≠ 92 := by decide
  have hK3 : ∀ b ∈ ascii ("by"), 32 ≤ b ∧ b ≠ 34 ∧ b ≠ 92 := by decide
  have hBYesc : jsonEscape GeneratedByStr = GeneratedByStr :=
    jsonEscapeBytes_plainrun GeneratedByStr (by decide) _ le_rfl
  obtain ⟨d0, dt, hD, hd1, hd2⟩ := intDec_head e
  rw [show jsonMarshalCookie ⟨utf8Encode rs, e, GeneratedByStr⟩ =
      123 :: (34 :: (ascii ("auth_data") ++ 34 :: 58 :: (34 :: (jsonEscape (utf8Encode rs) ++ 34 :: 44 :: (34 :: (ascii ("expires") ++ 34 :: 58 :: (intDec e ++ 44 :: (34 :: (ascii ("by") ++ 34 :: 58 :: (34 :: (jsonEscape GeneratedByStr ++ 34 :: 125 :: []))))))))))) from by
    simp [jsonMarshalCookie, List.cons_append, List.nil_append, List.append_assoc]]
  rw [jsonUnmarshalCookie_obj]
  obtain ⟨F1, hF1⟩ : ∃ k, (34 :: (ascii ("auth_data") ++ 34 :: 58 :: (34 :: (jsonEscape (utf8Encode rs) ++ 34 :: 44 :: (34 :: (ascii ("expires") ++ 34 :: 58 :: (intDec e ++ 44 :: (34 :: (ascii ("by") ++ 34 :: 58 :: (34 :: (jsonEscape GeneratedByStr ++ 34 :: 125 :: []))))))))))).length =
      (k + 2) + 1 :=
    ⟨(34 :: (ascii ("auth_data") ++ 34 :: 58 :: (34 :: (jsonEscape (utf8Encode rs) ++ 34 :: 44 :: (34 :: (ascii ("expires") ++ 34 :: 58 :: (intDec e ++ 44 :: (34 :: (ascii ("by") ++ 34 :: 58 :: (34 :: (jsonEscape GeneratedByStr ++ 34 :: 125 :: []))))))))))).length - 3,
      by simp only [List.length_append, List.length_cons]; omega⟩
  rw [hF1]
  rw [parseMembers_member (F1 + 2) (ascii ("auth_data")) (34 :: (jsonEscape (utf8Encode rs) ++ 34 :: 44 :: (34 :: (ascii ("expires") ++ 34 :: 58 :: (intDec e ++ 44 :: (34 :: (ascii ("by") ++ 34 :: 58 :: (34 :: (jsonEscape GeneratedByStr ++ 34 :: 125 :: []))))))))) zeroCookie hK1]
  rw [show skipWs (34 :: (jsonEscape (utf8Encode rs) ++ 34 :: 44 :: (34 :: (ascii ("expires") ++ 34 :: 58 :: (intDec e ++ 44 :: (34 :: (ascii ("by") ++ 34 :: 58 :: (34 :: (jsonEscape GeneratedByStr ++ 34 :: 125 :: []))))))))) = 34 :: (jsonEscape (utf8Encode rs) ++ 34 :: 44 :: (34 :: (ascii ("expires") ++ 34 :: 58 :: (intDec e ++ 44 :: (34 :: (ascii ("by") ++ 34 :: 58 :: (34 :: (jsonEscape GeneratedByStr ++ 34 :: 125 :: [])))))))) from rfl]
  simp only [assignField_auth zeroCookie rs hval]
  simp only [show skipWs (44 :: (34 :: (ascii ("expires") ++ 34 :: 58 :: (intDec e ++ 44 :: (34 :: (ascii ("by") ++ 34 :: 58 :: (34 :: (jsonEscape GeneratedByStr ++ 34 :: 125 :: [])))))))) = 44 :: (34 :: (ascii ("expires") ++ 34 :: 58 :: (intDec e ++ 44 :: (34 :: (ascii ("by") ++ 34 :: 58 :: (34 :: (jsonEscape GeneratedByStr ++ 34 :: 125 :: []))))))) from rfl]
  rw [show F1 + 2 = (F1 + 1) + 1 from rfl]
  rw [parseMembers_member (F1 + 1) (ascii ("expires")) (intDec e ++ 44 :: (34 :: (ascii ("by") ++ 34 :: 58 :: (34 :: (jsonEscape GeneratedByStr ++ 34 :: 125 :: []))))) _ hK2]
  rw [show skipWs (intDec e ++ 44 :: (34 :: (ascii ("by") ++ 34 :: 58 :: (34 :: (jsonEscape GeneratedByStr ++ 34 :: 125 :: []))))) = intDec e ++ 44 :: (34 :: (ascii ("by") ++ 34 :: 58 :: (34 :: (jsonEscape GeneratedByStr ++ 34 :: 125 :: [])))) from by
    rw [hD, List.cons_append]
    exact skipWs_cons_of _ _ (by
      simp only [isJsonWs, Bool.or_eq_false_iff, beq_eq_false_iff_ne, ne_eq]
      omega)]
  simp only [assignField_expires _ e he1 he2]
  simp only [show skipWs (44 :: (34 :: (ascii ("by") ++ 34 :: 58 :: (34 :: (jsonEscape GeneratedByStr ++ 34 :: 125 :: []))))) = 44 :: (34 :: (ascii ("by") ++ 34 :: 58 :: (34 :: (jsonEscape GeneratedByStr ++ 34 :: 125 :: [])))) from rfl]
  rw [parseMembers_member F1 (ascii ("by")) (34 :: (jsonEscape GeneratedByStr ++ 34 :: 125 :: [])) _ hK3]
  rw [show skipWs (34 :: (jsonEscape GeneratedByStr ++ 34 :: 125 :: [])) = 34 :: (jsonEscape GeneratedByStr ++ 34 :: 125 :: []) from rfl]
  rw [show (34 :: (jsonEscape GeneratedByStr ++ 34 :: 125 :: [])) = 34 :: (GeneratedByStr ++ 34 :: 125 :: []) from by rw [hBYesc]]
  simp only [assignField_by]
  rfl

/-! ## Supporting lemmas: int64 wrap-around -/

theorem int64Sub_of_no_wrap (a b : Int) (h1 : -(2 ^ 63) ≤ a - b) (h2 : a - b < 2 ^ 63) :
    int64Sub a b = a - b := by
  simp only [int64Sub, int64OfMod]
  have h3 : 0 ≤ (a - b) % 2 ^ 64 := Int.emod_nonneg _ (by norm_num)
  have h4 : (a - b) % 2 ^ 64 < 2 ^ 64 := Int.emod_lt_of_pos _ (by norm_num)
  split <;> omega

/-! ## The master round-trip lemma: Parse after NewRawMsg -/

theorem replicate_append_cons (p a : Nat) (X : Bytes) :
    List.replicate p a ++ a :: X = a :: (List.replicate p a ++ X) := by
  induction p with
  | zero => rfl
  | succ n ih => simp only [List.replicate_succ, List.cons_append, ih]

theorem Parse_NewRawMsg (msg secret : Bytes) (now : Int)
    (hmsg : ∀ b ∈ msg, b < 256) (hnd : 45 ∉ b64EncodeRaw msg) :
    Parse secret (NewRawMsg msg secret) now =
      match jsonUnmarshalCookie msg with
      | none => .err .badJson
      | some c => if int64Sub c.ExpiresUnix now < 0 then .err .expired else .ok c := by
  have hH45 : 45 ∉ hexEncode (hmacSha1 secret (b64EncodePad msg)) :=
    dash_not_mem_hexEncode _ (hmacSha1_bytes_lt _ _)
  have hc3 : NewRawMsg msg secret = b64EncodePad msg ++ 45 :: 45 ::
      hexEncode (hmacSha1 secret (b64EncodePad msg)) := by
    simp [NewRawMsg, List.append_assoc]
  have hc1 : NewRawMsg msg secret = b64EncodeRaw msg ++ 45 ::
      (List.replicate (b64PadLen msg.length) 45 ++ 45 ::
        hexEncode (hmacSha1 secret (b64EncodePad msg))) := by
    rw [hc3]
    simp only [b64EncodePad, List.append_assoc, List.cons_append, List.nil_append]
    rw [replicate_append_cons]
  have hc2 : NewRawMsg msg secret = (b64EncodePad msg ++ [45]) ++ 45 ::
      hexEncode (hmacSha1 secret (b64EncodePad msg)) := by
    rw [hc3]
    simp [List.append_assoc]
  have hdash : goIndexOf (NewRawMsg msg secret) 45 = ((b64EncodeRaw msg).length : Int) := by
    rw [hc1]
    exact goIndexOf_append 45 _ _ hnd
  have hlast : goLastIndexOf (NewRawMsg msg secret) 45 =
      ((b64EncodePad msg).length : Int) + 1 := by
    rw [hc2, goLastIndexOf_append 45 _ _ hH45]
    simp
  have hlen : ((NewRawMsg msg secret).length : Int) = ((b64EncodePad msg).length : Int) + 2 +
      ((hexEncode (hmacSha1 secret (b64EncodePad msg))).length : Int) := by
    rw [hc3]
    simp only [List.length_append, List.length_cons]
    push_cast
    ring
  have hEle : (b64EncodeRaw msg).length ≤ (NewRawMsg msg secret).length := by
    rw [hc1]
    simp only [List.length_append, List.length_cons]
    omega
  have hs1 : goSliceTo (NewRawMsg msg secret) ((b64EncodeRaw msg).length : Int) =
      some (b64EncodeRaw msg) := by
    rw [goSliceTo_nat _ _ hEle]
    rw [hc1]
    rw [show b64EncodeRaw msg ++ 45 :: (List.replicate (b64PadLen msg.length) 45 ++ 45 ::
        hexEncode (hmacSha1 secret (b64EncodePad msg))) =
      b64EncodeRaw msg ++ (45 :: (List.replicate (b64PadLen msg.length) 45 ++ 45 ::
        hexEncode (hmacSha1 secret (b64EncodePad msg)))) from rfl]
    rw [List.take_left]
  have hBle : (b64EncodePad msg).length ≤ (NewRawMsg msg secret).length := by
    rw [hc3]
    simp only [List.length_append, List.length_cons]
    omega
  have hs2 : goSliceTo (NewRawMsg msg secret) (((b64EncodePad msg).length : Int) + 1 - 1) =
      some (b64EncodePad msg) := by
    rw [show ((b64EncodePad msg).length : Int) + 1 - 1 = ((b64EncodePad msg).length : Int) from
      by ring]
    rw [goSliceTo_nat _ _ hBle, hc3, List.take_left]
  have hs3 : goSliceFromIdx (NewRawMsg msg secret) (((b64EncodePad msg).length : Int) + 1 + 1) =
      some (hexEncode (hmacSha1 secret (b64EncodePad msg))) := by
    rw [show ((b64EncodePad msg).length : Int) + 1 + 1 =
      (((b64EncodePad msg).length + 2 : Nat) : Int) from by push_cast; ring]
    have hble2 : (b64EncodePad msg).length + 2 ≤ (NewRawMsg msg secret).length := by
      rw [hc3]
      simp only [List.length_append, List.length_cons]
      omega
    rw [goSliceFromIdx_nat _ _ hble2]
    rw [show (b64EncodePad msg).length + 2 = (b64EncodePad msg ++ [45, 45]).length from by
      simp]
    rw [show NewRawMsg msg secret = (b64EncodePad msg ++ [45, 45]) ++
        hexEncode (hmacSha1 secret (b64EncodePad msg)) from by rw [hc3]; simp]
    rw [List.drop_left]
  have hhex : hexDecode (hexEncode (hmacSha1 secret (b64EncodePad msg))) =
      some (hmacSha1 secret (b64EncodePad msg)) :=
    hexDecode_hexEncode _ (hmacSha1_bytes_lt _ _)
  simp only [Parse]
  rw [hdash, hlast]
  rw [if_neg (show ¬(((b64EncodeRaw msg).length : Int) = -1) from by omega)]
  rw [if_neg (show ¬(((b64EncodePad msg).length : Int) + 1 = -1) from by omega)]
  rw [if_neg (show ¬(((NewRawMsg msg secret).length : Int) <
      ((b64EncodePad msg).length : Int) + 1 + 1) from by rw [hlen]; omega)]
  simp only [hs1, b64DecodeRaw_encodeRaw msg hmsg, hs2, hs3, hhex, checkHmac_self, if_true]

/-! ## The claims -/

set_option maxRecDepth 40000

set_option maxHeartbeats 1600000

theorem hexEncode_chars (bs : Bytes) (h : ∀ b ∈ bs, b < 256) :
    ∀ c ∈ hexEncode bs, (48 ≤ c ∧ c ≤ 57) ∨ (97 ≤ c ∧ c ≤ 102) := by
  induction bs with
  | nil => simp [hexEncode]
  | cons b rest ih =>
      have hb : b < 256 := h b (List.mem_cons_self b rest)
      have h1 := hexDigitOf_range (b / 16) (by omega)
      have h2 := hexDigitOf_range (b % 16) (by omega)
      have ih2 := ih (fun x hx => h x (List.mem_cons_of_mem b hx))
      intro c hc
      simp only [hexEncode, List.mem_cons] at hc
      rcases hc with rfl | rfl | hc
      · exact h1
      · exact h2
      · exact ih2 c hc

theorem GeneratedByStr_lt_256 : ∀ b ∈ GeneratedByStr, b < 256 := by decide

/-- C1 (amended): the round trip holds whenever the unpadded base64 body of
the marshalled record contains no dash byte: for every identity given as a
list of Unicode scalar values, every key, and every int64-range expiration not
earlier than `now` (without int64 wrap in the difference), `Parse` of `New`
returns the record with that identity, the whole-second expiration and the
standard issuer. The dash-freeness side condition is necessary: see the
counterexample. -/
theorem c1_round_trip (rs : List Nat) (hval : ∀ r ∈ rs, ValidRune r) (key : Bytes)
    (e : Int) (he1 : -(2 ^ 63) ≤ e) (he2 : e < 2 ^ 63) (ns : Nat) (now : Int)
    (hnow : now ≤ e) (hwrap : e - now < 2 ^ 63)
    (hnd : 45 ∉ b64EncodeRaw (jsonMarshalCookie ⟨utf8Encode rs, e, GeneratedByStr⟩)) :
    Parse key (New (utf8Encode rs) ⟨e, ns⟩ key) now =
      .ok ⟨utf8Encode rs, e, GeneratedByStr⟩ := by
  rw [show New (utf8Encode rs) ⟨e, ns⟩ key =
      NewRawMsg (jsonMarshalCookie ⟨utf8Encode rs, e, GeneratedByStr⟩) key from rfl]
  rw [Parse_NewRawMsg _ key now
    (jsonMarshalCookie_lt_256 ⟨utf8Encode rs, e, GeneratedByStr⟩
      (utf8Encode_lt_256 rs hval) GeneratedByStr_lt_256) hnd]
  simp only [unmarshal_marshal rs hval e he1 he2]
  rw [int64Sub_of_no_wrap e now (by omega) hwrap]
  rw [if_neg (by omega)]

/-- Witness for C1: identity "alice", key "s3cret", expiration 2000000000,
parsed at that same second. -/
theorem c1_round_trip_witness :
    Parse (ascii ("s3cret")) (New (utf8Encode [97, 108, 105, 99, 101]) ⟨2000000000, 0⟩
      (ascii ("s3cret"))) 2000000000 =
      .ok ⟨utf8Encode [97, 108, 105, 99, 101], 2000000000, GeneratedByStr⟩ :=
  c1_round_trip [97, 108, 105, 99, 101] (by decide) (ascii ("s3cret")) 2000000000
    (by decide) (by decide) 0 2000000000 (by decide) (by decide) (by decide)

/-- C1 counterexample: for identity "~" the base64 body contains a dash (URL-safe
alphabet character 62), the first-dash payload truncation cuts the body, and the
round trip fails with the payload error instead of succeeding. -/
theorem c1_round_trip_cex :
    Parse (ascii ("s3cret")) (New (ascii ("~")) ⟨2000000000, 0⟩ (ascii ("s3cret")))
      1760140800 = .err .badJson := by decide

/-- C2: `Parse` is not total: on the one-character cookie "-" both dash scans
return 0 and the slice `cookie[:lastDashPos-1]` is `cookie[:-1]`, an
out-of-range Go slice that panics — modelled as the `fault` outcome — for
every secret and every clock value. -/
theorem c2_parse_fault_on_dash (secret : Bytes) (now : Int) :
    Parse secret (ascii ("-")) now = .fault := rfl

/-- C3: wire format of minted tokens — `New` produces the dash-padded URL-safe
base64 of the marshalled record, then the literal "--", then the hex rendering
of the HMAC-SHA1 tag computed with the key over the padded encoded text (not
the raw payload); every signature character is a decimal digit or a lowercase
hex letter. -/
theorem c3_wire_format (user : Bytes) (exp : GoTime) (key : Bytes) :
    New user exp key =
      b64EncodePad (jsonMarshalCookie ⟨user, exp.sec, GeneratedByStr⟩) ++ [45, 45] ++
        hexEncode (hmacSha1 key (b64EncodePad (jsonMarshalCookie ⟨user, exp.sec, GeneratedByStr⟩))) ∧
    ∀ c ∈ hexEncode (hmacSha1 key (b64EncodePad (jsonMarshalCookie ⟨user, exp.sec, GeneratedByStr⟩))),
      (48 ≤ c ∧ c ≤ 57) ∨ (97 ≤ c ∧ c ≤ 102) :=
  ⟨rfl, hexEncode_chars _ (hmacSha1_bytes_lt _ _)⟩

/-- C4: expiration boundary — a token minted for expiration `e` parses
successfully when `now = e` and is rejected as expired when `now = e + 1`
(token well formed: dash-free base64 body, int64-range expiration). -/
theorem c4_expiration_boundary (rs : List Nat) (hval : ∀ r ∈ rs, ValidRune r)
    (key : Bytes) (e : Int) (he1 : -(2 ^ 63) ≤ e) (he2 : e < 2 ^ 63) (ns : Nat)
    (hnd : 45 ∉ b64EncodeRaw (jsonMarshalCookie ⟨utf8Encode rs, e, GeneratedByStr⟩)) :
    Parse key (New (utf8Encode rs) ⟨e, ns⟩ key) e = .ok ⟨utf8Encode rs, e, GeneratedByStr⟩ ∧
    Parse key (New (utf8Encode rs) ⟨e, ns⟩ key) (e + 1) = .err .expired := by
  have hP : ∀ now : Int, Parse key (New (utf8Encode rs) ⟨e, ns⟩ key) now =
      match jsonUnmarshalCookie (jsonMarshalCookie ⟨utf8Encode rs, e, GeneratedByStr⟩) with
      | none => .err .badJson
      | some c => if int64Sub c.ExpiresUnix now < 0 then .err .expired else .ok c :=
    fun now => Parse_NewRawMsg _ key now
      (jsonMarshalCookie_lt_256 ⟨utf8Encode rs, e, GeneratedByStr⟩
        (utf8Encode_lt_256 rs hval) GeneratedByStr_lt_256) hnd
  constructor
  · rw [hP e]
    simp only [unmarshal_marshal rs hval e he1 he2]
    rw [int64Sub_of_no_wrap e e (by omega) (by omega)]
    rw [if_neg (by omega)]
  · rw [hP (e + 1)]
    simp only [unmarshal_marshal rs hval e he1 he2]
    rw [int64Sub_of_no_wrap e (e + 1) (by omega) (by omega)]
    rw [if_pos (by omega)]

/-- Witness for C4: identity "bob", key "k4", expiration 1900000000: valid at
1900000000, expired at 1900000001. -/
theorem c4_expiration_boundary_witness :
    Parse (ascii ("k4")) (New (utf8Encode [98, 111, 98]) ⟨1900000000, 0⟩ (ascii ("k4")))
        1900000000 = .ok ⟨utf8Encode [98, 111, 98], 1900000000, GeneratedByStr⟩ ∧
    Parse (ascii ("k4")) (New (utf8Encode [98, 111, 98]) ⟨1900000000, 0⟩ (ascii ("k4")))
        (1900000000 + 1) = .err .expired :=
  c4_expiration_boundary [98, 111, 98] (by decide) (ascii ("k4")) 1900000000
    (by decide) (by decide) 0 (by decide)

/-- C5 (amended): `Refresh` re-mints for the record's identity with expiration
`now + DefaultDuration` and the standard issuer, ignoring the record's own
expiration and issuer entirely; the decoded expiration exceeds the record's
only when the record's expiration lies below `now + DefaultDuration`, not
always as claimed — see the counterexample. -/
theorem c5_refresh (c : Cookie) (rs : List Nat) (hA : c.AuthData = utf8Encode rs)
    (hval : ∀ r ∈ rs, ValidRune r) (key : Bytes) (now : GoTime)
    (h1 : -(2 ^ 63) ≤ now.sec + DefaultDuration) (h2 : now.sec + DefaultDuration < 2 ^ 63)
    (hnd : 45 ∉ b64EncodeRaw (jsonMarshalCookie
      ⟨c.AuthData, now.sec + DefaultDuration, GeneratedByStr⟩)) :
    0 < DefaultDuration ∧
    Parse key (Refresh c key now) now.sec =
      .ok ⟨c.AuthData, now.sec + DefaultDuration, GeneratedByStr⟩ := by
  refine ⟨by decide, ?_⟩
  rw [show Refresh c key now =
      NewRawMsg (jsonMarshalCookie ⟨c.AuthData, now.sec + DefaultDuration, GeneratedByStr⟩)
        key from rfl]
  rw [hA] at hnd ⊢
  rw [Parse_NewRawMsg _ key now.sec
    (jsonMarshalCookie_lt_256 ⟨utf8Encode rs, now.sec + DefaultDuration, GeneratedByStr⟩
      (utf8Encode_lt_256 rs hval) GeneratedByStr_lt_256) hnd]
  simp only [unmarshal_marshal rs hval (now.sec + DefaultDuration) h1 h2]
  rw [int64Sub_of_no_wrap (now.sec + DefaultDuration) now.sec
    (by simp only [DefaultDuration]; omega) (by simp only [DefaultDuration]; omega)]
  rw [if_neg (by simp only [DefaultDuration]; omega)]

/-- Witness for C5: a record with far-future expiration 9999999999 and a
non-standard issuer "x" refreshed at 2100000000 under key "k5". -/
theorem c5_refresh_witness :
    0 < DefaultDuration ∧
    Parse (ascii ("k5"))
      (Refresh ⟨utf8Encode [122], 9999999999, ascii ("x")⟩ (ascii ("k5")) ⟨2100000000, 7⟩)
      2100000000 =
      .ok ⟨utf8Encode [122], 2100000000 + DefaultDuration, GeneratedByStr⟩ :=
  c5_refresh ⟨utf8Encode [122], 9999999999, ascii ("x")⟩ [122] rfl (by decide)
    (ascii ("k5")) ⟨2100000000, 7⟩ (by decide) (by decide) (by decide)

/-- C5 counterexample: refreshing a record whose expiration 2000007200 lies
more than `DefaultDuration` ahead of the clock 2000000000 yields a token whose
decoded expiration 2000003600 is strictly EARLIER than the record's. -/
theorem c5_refresh_cex :
    Parse (ascii ("s3cret"))
      (Refresh ⟨ascii ("a"), 2000007200, ascii ("x")⟩ (ascii ("s3cret")) ⟨2000000000, 0⟩)
      2000000000 = .ok ⟨ascii ("a"), 2000003600, GeneratedByStr⟩ ∧
    (2000003600 : Int) < 2000007200 := by
  refine ⟨by decide, by decide⟩

/-- C6 (amended): a cookie with no dash is rejected as malformed (`noDashes`),
but a cookie ending exactly at its last dash whose body base64-decodes is
rejected as a SIGNATURE MISMATCH, not as malformed: the length guard before
the signature slice is dead code, the empty signature segment hex-decodes to
the empty tag, and the HMAC comparison fails. -/
theorem c6_malformed (secret : Bytes) (now : Int) :
    (∀ s : Bytes, 45 ∉ s → Parse secret s now = .err .noDashes) ∧
    (∀ s m : Bytes, s ≠ [] → 45 ∉ s → b64DecodeRaw s = some m →
      Parse secret (s ++ [45]) now = .err .badSignature) := by
  constructor
  · intro s hs
    simp only [Parse]
    rw [goIndexOf_not_mem 45 s hs]
    rw [if_pos rfl]
  · intro s m hne h45 hdec
    have hlen1 : 0 < s.length := List.length_pos.mpr hne
    have hdash : goIndexOf (s ++ [45]) 45 = (s.length : Int) := goIndexOf_append 45 s [] h45
    have hlast : goLastIndexOf (s ++ [45]) 45 = (s.length : Int) :=
      goLastIndexOf_append 45 s [] (by simp)
    have hs1 : goSliceTo (s ++ [45]) ((s.length : Int)) = some s := by
      rw [goSliceTo_nat _ _ (by simp), List.take_left]
    have hs2 : goSliceTo (s ++ [45]) ((s.length : Int) - 1) =
        some ((s ++ [45]).take ((s.length : Int) - 1).toNat) := by
      rw [goSliceTo, if_pos]
      refine ⟨by omega, ?_⟩
      simp only [List.length_append, List.length_cons, List.length_nil]
      push_cast
      omega
    have hs3 : goSliceFromIdx (s ++ [45]) ((s.length : Int) + 1) = some [] := by
      rw [show ((s.length : Int) + 1) = ((s.length + 1 : Nat) : Int) from by push_cast; ring]
      rw [goSliceFromIdx_nat _ _ (by simp)]
      rw [show s.length + 1 = (s ++ [45]).length from by simp]
      rw [List.drop_length]
    simp only [Parse]
    rw [hdash, hlast]
    rw [if_neg (show ¬((s.length : Int) = -1) from by omega)]
    rw [if_neg (show ¬((s.length : Int) = -1) from by omega)]
    have hL : (((s ++ [45]).length : Int)) = (s.length : Int) + 1 := by simp
    rw [hL]
    rw [if_neg (lt_irrefl ((s.length : Int) + 1))]
    simp only [hs1, hdec, hs2, hs3]
    simp only [show hexDecode [] = some [] from rfl]
    simp [checkHmac_empty]

/-- Witness for C6: under key "k6", the dash-free cookie "q" is malformed and
the cookie "ab-" (empty signature segment, decodable body) is a signature
mismatch. -/
theorem c6_malformed_witness :
    Parse (ascii ("k6")) (ascii ("q")) 0 = .err .noDashes ∧
    Parse (ascii ("k6")) (ascii ("ab") ++ [45]) 0 = .err .badSignature :=
  ⟨(c6_malformed (ascii ("k6")) 0).1 (ascii ("q")) (by decide),
   (c6_malformed (ascii ("k6")) 0).2 (ascii ("ab")) [105] (by decide) (by decide) (by decide)⟩

/-- C6 counterexample: the cookie "ab-" ends exactly at its last dash (empty
signature segment) yet `Parse` rejects it as a signature mismatch, not with a
malformed-input error as the specification claims. -/
theorem c6_malformed_cex : Parse (ascii ("k")) (ascii ("ab-")) 0 = .err .badSignature := by
  decide

/-- C7 (amended): a correctly signed token whose structurally valid payload
omits required fields is NOT rejected — the missing fields take Go zero
values: the payload naming only "expires" parses to a record with empty
identity and empty issuer. -/
theorem c7_missing_fields (secret : Bytes) (now : Int)
    (h1 : 0 ≤ 4102444800 - now) (h2 : 4102444800 - now < 2 ^ 63) :
    Parse secret (NewRawMsg (ascii ("\x7b\"expires\":4102444800\x7d")) secret) now =
      .ok ⟨[], 4102444800, []⟩ := by
  rw [Parse_NewRawMsg _ secret now (by decide) (by decide)]
  simp only [show jsonUnmarshalCookie (ascii ("\x7b\"expires\":4102444800\x7d")) =
    some ⟨[], 4102444800, []⟩ from by decide]
  rw [int64Sub_of_no_wrap 4102444800 now (by omega) h2]
  rw [if_neg (by omega)]

/-- Witness for C7: key "k7", clock 1760140800. -/
theorem c7_missing_fields_witness :
    Parse (ascii ("k7")) (NewRawMsg (ascii ("\x7b\"expires\":4102444800\x7d")) (ascii ("k7")))
      1760140800 = .ok ⟨[], 4102444800, []⟩ :=
  c7_missing_fields (ascii ("k7")) 1760140800 (by decide) (by decide)

/-- C7 counterexample: a correctly signed token over the payload
`\x7b"expires":4102444800\x7d`, which omits the identity and issuer fields,
is accepted with default-valued fields instead of being rejected with a
payload-format error. -/
theorem c7_missing_fields_cex :
    Parse (ascii ("k"))
      (NewRawMsg ([123, 34] ++ ascii ("expires") ++ [34, 58] ++ ascii ("4102444800") ++ [125])
        (ascii ("k"))) 1760140800 = .ok ⟨[], 4102444800, []⟩ := by decide

/-- C8 (amended): `Parse` base64-decodes the payload BEFORE recomputing the
HMAC, contrary to the claimed order: an undecodable payload yields the base64
error even when the signature is also wrong, and whenever `Parse` reports a
signature mismatch the payload segment before the first dash did decode. -/
theorem c8_verification_order (secret : Bytes) (now : Int) :
    Parse secret (ascii ("A-ff")) now = .err .badB64 ∧
    ∀ cookie : Bytes, Parse secret cookie now = .err .badSignature →
      ∃ m, b64DecodeRaw (cookie.take (goIndexOf cookie 45).toNat) = some m := by
  refine ⟨rfl, ?_⟩
  intro cookie h
  simp only [Parse] at h
  by_cases h1 : goIndexOf cookie 45 = -1
  · rw [if_pos h1] at h
    simp at h
  rw [if_neg h1] at h
  by_cases h2 : goLastIndexOf cookie 45 = -1
  · rw [if_pos h2] at h
    simp at h
  rw [if_neg h2] at h
  by_cases h3 : ((cookie.length : Int)) < goLastIndexOf cookie 45 + 1
  · rw [if_pos h3] at h
    simp at h
  rw [if_neg h3] at h
  cases hst : goSliceTo cookie (goIndexOf cookie 45) with
  | none =>
      simp only [hst] at h
      simp at h
  | some btxt =>
      simp only [hst] at h
      cases hdec : b64DecodeRaw btxt with
      | none =>
          simp only [hdec] at h
          simp at h
      | some m =>
          rw [goSliceTo] at hst
          by_cases hc : 0 ≤ goIndexOf cookie 45 ∧ goIndexOf cookie 45 ≤ (cookie.length : Int)
          · rw [if_pos hc] at hst
            injection hst with h4
            exact ⟨m, by rw [← h4] at hdec; exact hdec⟩
          · rw [if_neg hc] at hst
            exact absurd hst (by simp)

/-- Witness for C8: the undecodable-payload cookie "A-ff" under key "k8", and
the signature-mismatch cookie "ab-" whose payload segment "ab" decodes. -/
theorem c8_verification_order_witness :
    Parse (ascii ("k8")) (ascii ("A-ff")) 0 = .err .badB64 ∧
    ∃ m, b64DecodeRaw ((ascii ("ab-")).take (goIndexOf (ascii ("ab-")) 45).toNat) = some m :=
  ⟨(c8_verification_order (ascii ("k8")) 0).1,
   (c8_verification_order (ascii ("k8")) 0).2 (ascii ("ab-")) (by decide)⟩

/-- C8 counterexample: on the cookie "A-ff" — whose one-character payload
segment "A" cannot be base64-decoded and whose signature "ff" does not match —
`Parse` returns the base64 payload error, not the bad-signature error the
claimed verification order requires. -/
theorem c8_verification_order_cex :
    Parse (ascii ("k")) (ascii ("A-ff")) 0 = .err .badB64 ∧
    ParseErr.badB64 ≠ ParseErr.badSignature := ⟨rfl, by decide⟩

/-- C10: the expiration check subtracts in wrapping signed 64-bit arithmetic,
so a token whose expiration is -2^63 — further in the past than any clock —
wraps to a non-negative difference at the positive clock 1760140800 and is
accepted as valid instead of rejected as expired. -/
theorem c10_int64_wrap :
    Parse (ascii ("s3cret"))
      (NewRawMsg (jsonMarshalCookie ⟨ascii ("a"), -9223372036854775808, ascii ("x")⟩)
        (ascii ("s3cret"))) 1760140800 = .ok ⟨ascii ("a"), -9223372036854775808, ascii ("x")⟩ ∧
    (-9223372036854775808 - 1760140800 : Int) < 0 ∧
    0 ≤ int64Sub (-9223372036854775808) 1760140800 := by
  refine ⟨by decide, by decide, by decide⟩

end ToCookie
